import Mathlib

/-!
# fetch-new.mjs: the feed-ingestion pipeline

A shallow embedding of `scripts/fetch-new.mjs` (parse, filter, normalise,
deduplicate, sort, truncate) and theorems about it.

Conventions of the embedding.

* A JavaScript string is the list of its UTF-16 code units (`JSString`), so
  `length`, `slice`, `split`, `includes` and the regular expressions work on
  code units exactly as in the source.
* An absent value (`null` / `undefined`) is `none`.
* A record's `date` is `null` or the ISO-8601 string that `toISOString` printed
  for a time value (`isoText`); the embedding keeps the time value itself
  (milliseconds since 1970-01-01T00:00:00Z), which `new Date(iso).getTime()`
  gives back.
* What the host decides (the body or failure of each fetch, the permissive
  date parser behind `new Date(string)`, the clock) is a parameter.
-/

namespace FetchNews

/-! ## Strings -/

/-- A JavaScript string: its UTF-16 code units. -/
abbrev JSString := List Nat

/-- UTF-16 code units of one code point. -/
def encodeChar (c : Char) : List Nat :=
  if c.toNat < 65536 then [c.toNat]
  else [55296 + (c.toNat - 65536) / 1024, 56320 + (c.toNat - 65536) % 1024]

/-- A string literal of the source as a `JSString`. -/
def str (s : String) : JSString := s.toList.flatMap encodeChar

/-! ## Data model -/

/-- The object literal pushed by `parseRss`: `{ title, link, pubDate, description }`. -/
structure RawFeedItem where
  title : JSString
  link : JSString
  pubDate : JSString
  description : JSString
deriving DecidableEq, Repr

/-- The object literal pushed onto `all` in the main loop. -/
structure OutputRecord where
  source : JSString
  title : JSString
  url : JSString
  date : Option Int
  excerpt : JSString
deriving DecidableEq, Repr

/-- The object `out` that is serialised to `data/news.json`. -/
structure Snapshot where
  generatedAt : JSString
  count : Nat
  items : List OutputRecord
deriving DecidableEq, Repr

/-! ## String primitives of the host -/

/-- The code units matched by `\s` and removed by `trim()`: the ECMAScript
WhiteSpace and LineTerminator code points. -/
def isWhite (c : Nat) : Bool :=
  c = 9 || c = 10 || c = 11 || c = 12 || c = 13 || c = 32 || c = 160 || c = 5760 ||
  (8192 ≤ c && c ≤ 8202) || c = 8232 || c = 8233 || c = 8239 || c = 8287 ||
  c = 12288 || c = 65279

/-- The code units matched by `.` (no `s` flag): everything but the line
terminators LF, CR, U+2028 and U+2029. -/
def isDot (c : Nat) : Bool :=
  !(c = 10 || c = 13 || c = 8232 || c = 8233)

/-- The code units matched by `[\s\S]`: all of them. -/
def isAny (_ : Nat) : Bool := true

/-- `String.prototype.trimStart`. -/
def trimStart (s : JSString) : JSString := s.dropWhile isWhite

/-- `String.prototype.trimEnd`. -/
def trimEnd (s : JSString) : JSString := (s.reverse.dropWhile isWhite).reverse

/-- `String.prototype.trim`. -/
def trim (s : JSString) : JSString := trimEnd (trimStart s)

/-- `hay.includes(needle)`: `needle` occurs in `hay` at some position. -/
def includes : JSString → JSString → Bool
  | [], needle => needle.isPrefixOf []
  | c :: cs, needle => needle.isPrefixOf (c :: cs) || includes cs needle

/-- Lower-case mapping of one code unit. `String.prototype.toLowerCase` follows
the Unicode default case conversion; the mapping is spelled out for Basic Latin
and Latin-1 and for the code points outside them whose lower-case form lies in
these two ranges (U+0130, U+0178, U+1E9E, U+212A, U+212B). Every other code
unit is left as it is. -/
def lowerUnit (c : Nat) : List Nat :=
  if 65 ≤ c ∧ c ≤ 90 then [c + 32]
  else if 192 ≤ c ∧ c ≤ 222 ∧ c ≠ 215 then [c + 32]
  else if c = 304 then [105, 775]
  else if c = 376 then [255]
  else if c = 7838 then [223]
  else if c = 8490 then [107]
  else if c = 8491 then [229]
  else [c]

/-- `String.prototype.toLowerCase`. -/
def toLowerCase (s : JSString) : JSString := s.flatMap lowerUnit

/-- The loop of `String.prototype.split` for a non-empty separator: `cur` is the
piece being read, and the counter is the number of code units of a separator
just found that are still to be passed over. -/
def splitGo (sep : JSString) : Nat → JSString → JSString → List JSString
  | _, [], cur => [cur]
  | k + 1, _ :: cs, cur => splitGo sep k cs cur
  | 0, c :: cs, cur =>
      if sep.isPrefixOf (c :: cs) then cur :: splitGo sep (sep.length - 1) cs []
      else splitGo sep 0 cs (cur ++ [c])

/-- `s.split(sep)` for a non-empty separator `sep`. -/
def split (s sep : JSString) : List JSString := splitGo sep 0 s []

/-- The lazy group `(D*?)` followed by the literal `close`, read at the start of
the given text, where `D` is the class `dot`: the shortest run of `dot` code
units after which `close` stands. -/
def lazyUntil (dot : Nat → Bool) (close : JSString) : JSString → Option JSString
  | [] => if close.isPrefixOf [] then some [] else none
  | c :: cs =>
      if close.isPrefixOf (c :: cs) then some []
      else if dot c then (lazyUntil dot close cs).map (fun r => c :: r)
      else none

/-- The pattern `opn (D*?) close` tried at the start of the text: the capture
group on success. -/
def matchHere (dot : Nat → Bool) (opn close s : JSString) : Option JSString :=
  if opn.isPrefixOf s then lazyUntil dot close (s.drop opn.length) else none

/-- The capture group 1 of `s.match(/opn(D*?)close/)`, where `opn` and `close` are
literals: the pattern is tried at each position from the left, and the first
position where it matches decides; `none` when `match` returns `null`. -/
def regexCapture (dot : Nat → Bool) (opn close : JSString) : JSString → Option JSString
  | [] => matchHere dot opn close []
  | c :: cs =>
      match matchHere dot opn close (c :: cs) with
      | some r => some r
      | none => regexCapture dot opn close cs

/-! ## Configuration -/

/-- The constant `KEYWORDS`. -/
def KEYWORDS : List JSString :=
  [ str "TEAC", str "TEAR", str "TS", str "Tribunal Supremo", str "Audiencia Nacional",
    str "TJUE", str "CJEU",
    str "IRPF", str "LIRPF", str "7p", str "Beckham", str "impatriados", str "IRNR",
    str "LIRNR", str "LIS", str "IS", str "IVA", str "LIVA",
    str "inspección", str "comprobación", str "sanción", str "LGT", str "Modelo 210",
    str "Modelo 720", str "VAT", str "direct taxation" ]

/-- An entry of `FEEDS`: `{ id, url }`. -/
structure FeedSource where
  id : JSString
  url : JSString
deriving DecidableEq, Repr

/-- The constant `FEEDS`. -/
def FEEDS : List FeedSource :=
  [ { id := str "TS",
      url := str "https://www.poderjudicial.es/cgpj/es/Poder-Judicial/Tribunal-Supremo/ch.En-Portada.formato1/" },
    { id := str "AN",
      url := str "https://www.poderjudicial.es/cgpj/es/Poder-Judicial/Audiencia-Nacional/ch.En-Portada.formato1/" },
    { id := str "TJUE",
      url := str "https://curia.europa.eu/jcms/rss/press-releases/en.xml" } ]

/-! ## `matchesKeywords` -/

/-- The value of `x || ""` for a string or absent `x`. -/
def orEmpty (x : Option JSString) : JSString :=
  match x with
  | some s => s
  | none => []

/-- The function `matchesKeywords`:
`KEYWORDS.some(k => hay.includes(k.toLowerCase()))` with
`hay = (text || "").toLowerCase()`. -/
def matchesKeywords (text : Option JSString) : Bool :=
  let hay := toLowerCase (orEmpty text)
  KEYWORDS.any (fun k => includes hay (toLowerCase k))

/-! ## `parseRss` -/

/-- The value of `m?.[1] ?? fallback`, where `m` is the result of a `match`. -/
def orElseCapture (m : Option JSString) (fallback : JSString) : JSString :=
  match m with
  | some r => r
  | none => fallback

/-- The constant `title` of the loop body of `parseRss`. -/
def blockTitle (block : JSString) : JSString :=
  trim (orElseCapture (regexCapture isDot (str "<title><![CDATA[") (str "]]></title>") block)
    (orElseCapture (regexCapture isDot (str "<title>") (str "</title>") block) (str "")))

/-- The constant `link` of the loop body of `parseRss`. -/
def blockLink (block : JSString) : JSString :=
  trim (orElseCapture (regexCapture isDot (str "<link>") (str "</link>") block) (str ""))

/-- The constant `pubDate` of the loop body of `parseRss`. -/
def blockPubDate (block : JSString) : JSString :=
  trim (orElseCapture (regexCapture isDot (str "<pubDate>") (str "</pubDate>") block) (str ""))

/-- The constant `description` of the loop body of `parseRss`. -/
def blockDescription (block : JSString) : JSString :=
  trim (orElseCapture
    (regexCapture isDot (str "<description><![CDATA[") (str "]]></description>") block)
    (orElseCapture (regexCapture isAny (str "<description>") (str "</description>") block)
      (str "")))

/-- One iteration of `for (const block of itemBlocks)`: the array `items` after
the body has run on `block`. A string is truthy when it is not empty. -/
def parseRssStep (items : List RawFeedItem) (block : JSString) : List RawFeedItem :=
  let title := blockTitle block
  let link := blockLink block
  let pubDate := blockPubDate block
  let description := blockDescription block
  if title ≠ [] ∧ link ≠ [] then
    items ++ [{ title := title, link := link, pubDate := pubDate, description := description }]
  else items

/-- The constant `itemBlocks`: `xml.split("<item>").slice(1)`. -/
def itemBlocks (xml : JSString) : List JSString := (split xml (str "<item>")).drop 1

/-- The function `parseRss`. -/
def parseRss (xml : JSString) : List RawFeedItem :=
  (itemBlocks xml).foldl parseRssStep []

/-! ## Item blocks with a title and a link -/

/-- In `block` the first occurrence of the opening tag `opn` is followed by
`text` and the closing tag `close`, and `close` does not occur in `text`: the
block has an element `opn text close`, and it is the first one. -/
def HasElement (opn close block text : JSString) : Prop :=
  ∃ a r, block = a ++ opn ++ text ++ close ++ r ∧ ¬ opn <:+: a ∧ ¬ close <:+: text

/-- The title of the block is `title`: the content of the first
`<title><![CDATA[`...`]]></title>` element when the block contains
`<title><![CDATA[`, whatever plain title stands before it, and the text of the
first `<title>`...`</title>` element when the block does not contain
`<title><![CDATA[` at all. -/
def HasTitle (block title : JSString) : Prop :=
  HasElement (str "<title><![CDATA[") (str "]]></title>") block title ∨
    (¬ str "<title><![CDATA[" <:+: block ∧
      HasElement (str "<title>") (str "</title>") block title)

/-- An item block (the text after an `<item>`, up to the next `<item>` or the end
of the text) with a title element and a link element, each on one line and not
empty after trimming. -/
structure WellFormedBlock (block title link : JSString) : Prop where
  noItem : ¬ str "<item>" <:+: block
  hasTitle : HasTitle block title
  hasLink : HasElement (str "<link>") (str "</link>") block link
  titleOneLine : ∀ c ∈ title, isDot c = true
  linkOneLine : ∀ c ∈ link, isDot c = true
  titleNotBlank : trim title ≠ []
  linkNotBlank : trim link ≠ []

/-! ## `stripHtml` and `toISO` -/

/-- `s.replace(/<[^>]*>/g, " ")`: a `<` starts a match when a `>` follows
somewhere later, and the match ends at the first such `>`. The flag tells
whether the code unit read lies inside a match. -/
def replaceTags : Bool → JSString → JSString
  | _, [] => []
  | true, c :: cs => if c = 62 then replaceTags false cs else replaceTags true cs
  | false, c :: cs =>
      if c = 60 ∧ cs.contains 62 then 32 :: replaceTags true cs
      else c :: replaceTags false cs

/-- `s.replace(/\s+/g, " ")`. The flag tells whether the code unit before the
one read was white space (already replaced). -/
def collapseWhite : Bool → JSString → JSString
  | _, [] => []
  | inRun, c :: cs =>
      if isWhite c then
        if inRun then collapseWhite true cs else 32 :: collapseWhite true cs
      else c :: collapseWhite false cs

/-- The function `stripHtml`. -/
def stripHtml (html : Option JSString) : JSString :=
  trim (collapseWhite false (replaceTags false (orEmpty html)))

/-- Decimal digits of `n` in `width` places, padded with zeros on the left. -/
def padDigits (width n : Nat) : JSString :=
  (List.range width).reverse.map (fun i => 48 + n / 10 ^ i % 10)

/-- Year, month and day of the day number `day`, counted from 1970-01-01, in
the proleptic Gregorian calendar (`YearFromTime`, `MonthFromTime` + 1 and
`DateFromTime` of ECMAScript). Days are counted from 0000-03-01 in eras of 400
years (146097 days). -/
def civilOfDay (day : Int) : Int × Nat × Nat :=
  let z := day + 719468
  let era := z / 146097
  let doe := (z - era * 146097).toNat
  let yoe := (doe - doe / 1460 + doe / 36524 - doe / 146096) / 365
  let doy := doe - (365 * yoe + yoe / 4 - yoe / 100)
  let mp := (5 * doy + 2) / 153
  let d := doy - (153 * mp + 2) / 5 + 1
  let m := if mp < 10 then mp + 3 else mp - 9
  let y := (yoe : Int) + era * 400 + (if m ≤ 2 then 1 else 0)
  (y, m, d)

/-- The year of an ISO string: four digits from 0 to 9999, otherwise a sign and
six digits. -/
def yearText (y : Int) : JSString :=
  if 0 ≤ y ∧ y ≤ 9999 then padDigits 4 y.toNat
  else (if y < 0 then str "-" else str "+") ++ padDigits 6 y.natAbs

/-- The string `YYYY-MM-DDTHH:mm:ss.sssZ` that `Date.prototype.toISOString`
prints for the time value `t` (milliseconds since 1970-01-01T00:00:00Z), in
UTC. -/
def isoText (t : Int) : JSString :=
  let day := t / 86400000
  let ms := (t % 86400000).toNat
  let ymd := civilOfDay day
  yearText ymd.1 ++ str "-" ++ padDigits 2 ymd.2.1 ++ str "-" ++ padDigits 2 ymd.2.2 ++
    str "T" ++ padDigits 2 (ms / 3600000) ++ str ":" ++ padDigits 2 (ms / 60000 % 60) ++
    str ":" ++ padDigits 2 (ms / 1000 % 60) ++ str "." ++ padDigits 3 (ms % 1000) ++ str "Z"

/-- `isNaN(d.getTime())` for a date whose time value is `tv`, `none` standing
for `NaN`. -/
def isNaN (tv : Option Int) : Bool :=
  match tv with
  | none => true
  | some _ => false

/-- `d.toISOString()` for a date whose time value is `tv`: it throws a
`RangeError` when the time value is `NaN`, and returns the ISO string
otherwise. -/
def toISOString (tv : Option Int) : Except JSString JSString :=
  match tv with
  | none => .error (str "Invalid time value")
  | some t => .ok (isoText t)

/-- The function `toISO`:
`const d = new Date(pubDate); return isNaN(d.getTime()) ? null : d.toISOString();`.
The parameter `dateParse` is the time value of `new Date(pubDate)`, `none`
standing for `NaN`. The result is the value returned (`null` or a string), or
the message of an error thrown. -/
def toISO (dateParse : JSString → Option Int) (pubDate : JSString) :
    Except JSString (Option JSString) :=
  let d := dateParse pubDate
  if isNaN d then .ok none
  else
    match toISOString d with
    | .ok iso => .ok (some iso)
    | .error msg => .error msg

/-- The value of `x || null` for `x` a string or `null`: the empty string is
falsy. -/
def orNull (x : Option JSString) : Option JSString :=
  match x with
  | some s => if s = [] then none else some s
  | none => none

/-! ## The main loop -/

/-- The constant `excerpt`-expression of the record:
`plainDesc.slice(0, 180) + (plainDesc.length > 180 ? "…" : "")`. -/
def excerptOf (plainDesc : JSString) : JSString :=
  plainDesc.take 180 ++ (if plainDesc.length > 180 then str "…" else str "")

/-- The object literal pushed onto `all` for the item `it` of the feed `feed`.
The field `date` is `toISO(it.pubDate) || null`: `null`, or the ISO string of
the time value of `new Date(it.pubDate)`, which the record keeps as that time
value. `toISO` returns for every input (`toISO_returns`), so the branch of a
thrown error is never taken. -/
def mkRecord (dateParse : JSString → Option Int) (feed : FeedSource) (it : RawFeedItem) :
    OutputRecord :=
  let plainDesc := stripHtml (some it.description)
  { source := feed.id,
    title := it.title,
    url := it.link,
    date :=
      match toISO dateParse it.pubDate with
      | .ok iso => (orNull iso).bind (fun _ => dateParse it.pubDate)
      | .error _ => none,
    excerpt := excerptOf plainDesc }

/-- The constant `blob`: the template string of title, a space and the stripped
description. -/
def blobOf (it : RawFeedItem) : JSString :=
  it.title ++ str " " ++ stripHtml (some it.description)

/-- One iteration of `for (const it of items)`: the array `all` after the body
has run on `it`. -/
def itemStep (dateParse : JSString → Option Int) (feed : FeedSource)
    (all : List OutputRecord) (it : RawFeedItem) : List OutputRecord :=
  if matchesKeywords (some (blobOf it)) then all ++ [mkRecord dateParse feed it] else all

/-- What the host's `fetch` gives for a URL: a rejection with a message, or a
response with its `ok` flag, its status and its body. -/
structure Response where
  ok : Bool
  status : Nat
  text : JSString
deriving DecidableEq, Repr

/-- The function `fetchText`: the body, or the message of the error thrown. -/
def fetchText (fetch : JSString → Except JSString Response) (url : JSString) :
    Except JSString JSString :=
  match fetch url with
  | .error msg => .error msg
  | .ok res =>
      if !res.ok then
        .error (str "Fetch failed " ++ str (toString res.status) ++ str " for " ++ url)
      else .ok res.text

/-- The state of the run while the feeds are read: the array `all` and the
lines written by `console.error`. -/
structure RunState where
  all : List OutputRecord
  errors : List JSString
deriving DecidableEq, Repr

/-- One iteration of `for (const feed of FEEDS)`: the `try` block when the fetch
succeeds, the `catch` block when it throws. -/
def feedStep (fetch : JSString → Except JSString Response)
    (dateParse : JSString → Option Int) (st : RunState) (feed : FeedSource) : RunState :=
  match fetchText fetch feed.url with
  | .ok xml => { st with all := (parseRss xml).foldl (itemStep dateParse feed) st.all }
  | .error msg => { st with errors := st.errors ++ [str "[" ++ feed.id ++ str "] " ++ msg] }

/-- The loop over `FEEDS`, started with `all = []`. -/
def collect (fetch : JSString → Except JSString Response)
    (dateParse : JSString → Option Int) : RunState :=
  FEEDS.foldl (feedStep fetch dateParse) { all := [], errors := [] }

/-! ## Deduplication (`// Dedup por URL`) -/

/-- The two variables of the dedup loop: the array `dedup` and the set `seen`. -/
structure DedupState where
  dedup : List OutputRecord
  seen : List JSString
deriving DecidableEq, Repr

/-- One iteration of `for (const n of all)`:
`if (!seen.has(n.url)) { seen.add(n.url); dedup.push(n); }`. -/
def dedupStep (st : DedupState) (n : OutputRecord) : DedupState :=
  if st.seen.contains n.url then st
  else { dedup := st.dedup ++ [n], seen := st.seen ++ [n.url] }

/-- The whole dedup loop, started with `dedup = []` and `seen = new Set()`. -/
def dedupLoop (all : List OutputRecord) : DedupState :=
  all.foldl dedupStep { dedup := [], seen := [] }

/-- The array `dedup` after the loop. -/
def dedupByUrl (all : List OutputRecord) : List OutputRecord :=
  (dedupLoop all).dedup

/-! ## Sorting (`// Orden: más reciente primero (null al final)`) -/

/-- The value `ta` / `tb` of the comparator:
`a.date ? new Date(a.date).getTime() : 0`. -/
def timeOf (a : OutputRecord) : Int :=
  match a.date with
  | some t => t
  | none => 0

/-- The comparator `(a, b) => tb - ta`. Time values are integers of magnitude at
most 8.64e15, so the sign of the floating-point difference is the sign of the
integer difference. -/
def compareFn (a b : OutputRecord) : Int := timeOf b - timeOf a

/-- Insertion of `a` in front of the first element it does not have to follow:
`a` stays before `b` when `compareFn a b ≤ 0`. -/
def sortInsert (a : OutputRecord) : List OutputRecord → List OutputRecord
  | [] => [a]
  | b :: l => if compareFn a b ≤ 0 then a :: b :: l else b :: sortInsert a l

/-- `dedup.sort(compareFn)`: `Array.prototype.sort` is stable, and `compareFn`
is a consistent comparator, so the result is the stable ordering of the array
by the comparator, computed here by insertion from the right. -/
def sortRecords : List OutputRecord → List OutputRecord
  | [] => []
  | a :: l => sortInsert a (sortRecords l)

/-! ## The snapshot -/

/-- The object literal `out`, built from the array `all` collected from the
feeds; `now` is `new Date().toISOString()`. -/
def buildSnapshot (now : JSString) (all : List OutputRecord) : Snapshot :=
  let dedup := sortRecords (dedupByUrl all)
  { generatedAt := now, count := dedup.length, items := dedup.take 30 }

/-- The body of the script up to the object `out`. -/
def main (fetch : JSString → Except JSString Response)
    (dateParse : JSString → Option Int) (now : JSString) : Snapshot :=
  buildSnapshot now (collect fetch dateParse).all


/-! ## Deduplication: lemmas -/

theorem dedupStep_of_mem (st : DedupState) (n : OutputRecord) (h : n.url ∈ st.seen) :
    dedupStep st n = st := by
  have hc : st.seen.contains n.url = true := by simpa using h
  unfold dedupStep
  rw [if_pos hc]

theorem dedupStep_of_not_mem (st : DedupState) (n : OutputRecord) (h : n.url ∉ st.seen) :
    dedupStep st n = { dedup := st.dedup ++ [n], seen := st.seen ++ [n.url] } := by
  have hc : ¬ st.seen.contains n.url = true := by simpa using h
  unfold dedupStep
  rw [if_neg hc]

theorem dedupStep_inv (st : DedupState) (n : OutputRecord)
    (hs : st.seen = st.dedup.map OutputRecord.url) (hn : st.seen.Nodup) :
    (dedupStep st n).seen = (dedupStep st n).dedup.map OutputRecord.url ∧
      (dedupStep st n).seen.Nodup ∧
      ∀ u, u ∈ (dedupStep st n).seen ↔ u ∈ st.seen ∨ u = n.url := by
  by_cases h : n.url ∈ st.seen
  · rw [dedupStep_of_mem st n h]
    refine ⟨hs, hn, fun u => ⟨Or.inl, ?_⟩⟩
    rintro (hu | rfl)
    · exact hu
    · exact h
  · rw [dedupStep_of_not_mem st n h]
    refine ⟨by simp [hs], ?_, fun u => by simp⟩
    show (st.seen ++ [n.url]).Nodup
    rw [List.nodup_append]
    exact ⟨hn, List.nodup_singleton _, by
      intro a ha hb
      rw [List.mem_singleton] at hb
      subst hb
      exact h ha⟩

theorem dedupFold_inv (l : List OutputRecord) :
    ∀ st : DedupState, st.seen = st.dedup.map OutputRecord.url → st.seen.Nodup →
      (l.foldl dedupStep st).seen = (l.foldl dedupStep st).dedup.map OutputRecord.url ∧
        (l.foldl dedupStep st).seen.Nodup ∧
        ∀ u, u ∈ (l.foldl dedupStep st).seen ↔ u ∈ st.seen ∨ u ∈ l.map OutputRecord.url := by
  induction l with
  | nil => intro st hs hn; simpa using ⟨hs, hn⟩
  | cons n l ih =>
    intro st hs hn
    obtain ⟨h1, h2, h3⟩ := dedupStep_inv st n hs hn
    obtain ⟨k1, k2, k3⟩ := ih (dedupStep st n) h1 h2
    refine ⟨k1, k2, fun u => ?_⟩
    simp only [List.foldl_cons, k3, h3, List.map_cons, List.mem_cons]
    tauto

theorem dedupByUrl_urls_nodup (all : List OutputRecord) :
    ((dedupByUrl all).map OutputRecord.url).Nodup := by
  obtain ⟨h1, h2, _⟩ := dedupFold_inv all { dedup := [], seen := [] } rfl List.nodup_nil
  unfold dedupByUrl dedupLoop
  rw [← h1]
  exact h2

theorem dedupByUrl_mem_urls (all : List OutputRecord) (u : JSString) :
    u ∈ (dedupByUrl all).map OutputRecord.url ↔ u ∈ all.map OutputRecord.url := by
  obtain ⟨h1, _, h3⟩ := dedupFold_inv all { dedup := [], seen := [] } rfl List.nodup_nil
  unfold dedupByUrl dedupLoop
  rw [← h1, h3]
  simp

/-- The records kept by the loop, read off the positions: started after the
records `pre` with a set `seen` holding their urls, the loop appends the records
of `l` that no earlier record of `pre ++ l` shares its url with. -/
theorem dedupFold_positions (l : List OutputRecord) :
    ∀ (pre : List OutputRecord) (st : DedupState),
      (∀ u, u ∈ st.seen ↔ u ∈ pre.map OutputRecord.url) →
      (l.foldl dedupStep st).dedup = st.dedup ++
        ((l.enumFrom pre.length).filter
          (fun (p : Nat × OutputRecord) =>
            decide (∀ r ∈ (pre ++ l).take p.1, r.url ≠ p.2.url))).map Prod.snd := by
  induction l with
  | nil => intro pre st _; simp
  | cons n l ih =>
    intro pre st hseen
    have htake : (pre ++ n :: l).take pre.length = pre := by simp
    have hstep : ∀ u, u ∈ (dedupStep st n).seen ↔ u ∈ (pre ++ [n]).map OutputRecord.url := by
      intro u
      by_cases h : n.url ∈ st.seen
      · rw [dedupStep_of_mem st n h]
        simp only [List.map_append, List.mem_append, List.map_cons, List.map_nil,
          List.mem_singleton, hseen]
        constructor
        · exact Or.inl
        · rintro (hu | rfl)
          · exact hu
          · exact (hseen _).1 h
      · rw [dedupStep_of_not_mem st n h]
        simp [hseen]
    have key := ih (pre ++ [n]) (dedupStep st n) hstep
    simp only [List.length_append, List.length_singleton, List.append_assoc,
      List.singleton_append] at key
    rw [List.foldl_cons, key, List.enumFrom_cons, List.filter_cons]
    by_cases h : n.url ∈ st.seen
    · have hm : n.url ∈ pre.map OutputRecord.url := (hseen _).1 h
      have hp : ¬ ∀ r ∈ (pre ++ n :: l).take pre.length, r.url ≠ n.url := by
        rw [htake]
        intro hall
        obtain ⟨r, hr, hru⟩ := List.mem_map.1 hm
        exact hall r hr hru
      rw [dedupStep_of_mem st n h, if_neg (by simpa using hp)]
    · have hm : n.url ∉ pre.map OutputRecord.url := fun hc => h ((hseen _).2 hc)
      have hp : ∀ r ∈ (pre ++ n :: l).take pre.length, r.url ≠ n.url := by
        rw [htake]
        intro r hr hru
        exact hm (List.mem_map.2 ⟨r, hr, hru⟩)
      rw [dedupStep_of_not_mem st n h, if_pos (by simpa using hp)]
      simp

/-! ## Sorting: lemmas -/

theorem sortInsert_perm (a : OutputRecord) (l : List OutputRecord) :
    (sortInsert a l).Perm (a :: l) := by
  induction l with
  | nil => simp [sortInsert]
  | cons b l ih =>
    unfold sortInsert
    split
    · exact List.Perm.refl _
    · exact (List.Perm.cons b ih).trans (List.Perm.swap a b l)

theorem sortRecords_perm (l : List OutputRecord) : (sortRecords l).Perm l := by
  induction l with
  | nil => simp [sortRecords]
  | cons a l ih =>
    unfold sortRecords
    exact (sortInsert_perm a _).trans (List.Perm.cons a ih)

theorem sortRecords_length (l : List OutputRecord) : (sortRecords l).length = l.length :=
  (sortRecords_perm l).length_eq


/-! ## Deduplication: positions -/

theorem dedupByUrl_eq_positions (all : List OutputRecord) :
    dedupByUrl all =
      ((all.enum.filter (fun (p : Nat × OutputRecord) =>
        decide (∀ r ∈ all.take p.1, r.url ≠ p.2.url))).map Prod.snd) := by
  have h := dedupFold_positions all [] { dedup := [], seen := [] } (by simp)
  simpa [dedupByUrl, dedupLoop, List.enum] using h

theorem dedupByUrl_sublist (all : List OutputRecord) : (dedupByUrl all).Sublist all := by
  rw [dedupByUrl_eq_positions]
  have hs : ((all.enum.filter (fun (p : Nat × OutputRecord) =>
      decide (∀ r ∈ all.take p.1, r.url ≠ p.2.url))).map Prod.snd).Sublist
      (all.enum.map Prod.snd) := (List.filter_sublist _).map Prod.snd
  rwa [List.enum_map_snd] at hs

/-! ## Strings: lemmas -/

theorem includes_iff_occurs (hay needle : JSString) :
    includes hay needle = true ↔ needle <:+: hay := by
  induction hay with
  | nil =>
    simp only [includes, List.isPrefixOf_iff_prefix]
    constructor
    · intro h; exact h.isInfix
    · intro h
      have := List.eq_nil_of_infix_nil h
      subst this
      exact List.prefix_refl _
  | cons c cs ih =>
    simp only [includes, Bool.or_eq_true, List.isPrefixOf_iff_prefix, ih, List.infix_cons_iff]

theorem toLowerCase_append (a b : JSString) :
    toLowerCase (a ++ b) = toLowerCase a ++ toLowerCase b := by
  simp [toLowerCase]

theorem trimEnd_ne_nil_not_white (s : JSString) (h : trimEnd s ≠ []) :
    (trimEnd s).all isWhite = false := by
  unfold trimEnd at h ⊢
  have hd : s.reverse.dropWhile isWhite ≠ [] := by
    intro hc
    rw [hc] at h
    exact h rfl
  have hh := List.head_dropWhile_not isWhite s.reverse hd
  rw [List.all_eq_false]
  refine ⟨(s.reverse.dropWhile isWhite).head hd, ?_, by simp [hh]⟩
  rw [List.mem_reverse]
  exact List.head_mem hd

theorem trim_ne_nil_not_white (s : JSString) (h : trim s ≠ []) :
    (trim s).all isWhite = false :=
  trimEnd_ne_nil_not_white _ h

/-! ## The loops as closed forms -/

theorem parseRssStep_append (items : List RawFeedItem) (block : JSString) :
    parseRssStep items block = items ++ parseRssStep [] block := by
  unfold parseRssStep
  by_cases h : blockTitle block ≠ [] ∧ blockLink block ≠ []
  · simp only [if_pos h, List.nil_append]
  · simp only [if_neg h, List.append_nil]

theorem parseRssFold_eq (blocks : List JSString) :
    ∀ items : List RawFeedItem,
      blocks.foldl parseRssStep items = items ++ blocks.flatMap (parseRssStep []) := by
  induction blocks with
  | nil => intro items; simp
  | cons b bs ih =>
    intro items
    rw [List.foldl_cons, ih, parseRssStep_append items b, List.flatMap_cons, List.append_assoc]

theorem parseRss_eq_flatMap (xml : JSString) :
    parseRss xml = (itemBlocks xml).flatMap (parseRssStep []) := by
  unfold parseRss
  rw [parseRssFold_eq]
  rfl

theorem parseRssStep_kept (block : JSString)
    (h : blockTitle block ≠ [] ∧ blockLink block ≠ []) :
    parseRssStep [] block =
      [{ title := blockTitle block, link := blockLink block, pubDate := blockPubDate block,
         description := blockDescription block }] := by
  unfold parseRssStep
  simp only [if_pos h, List.nil_append]

theorem parseRssStep_dropped (block : JSString)
    (h : ¬ (blockTitle block ≠ [] ∧ blockLink block ≠ [])) :
    parseRssStep [] block = [] := by
  unfold parseRssStep
  simp only [if_neg h]

theorem mem_parseRss (xml : JSString) (it : RawFeedItem) (h : it ∈ parseRss xml) :
    ∃ block ∈ itemBlocks xml, blockTitle block ≠ [] ∧ blockLink block ≠ [] ∧
      it = { title := blockTitle block, link := blockLink block,
             pubDate := blockPubDate block, description := blockDescription block } := by
  rw [parseRss_eq_flatMap, List.mem_flatMap] at h
  obtain ⟨block, hb, hit⟩ := h
  by_cases hk : blockTitle block ≠ [] ∧ blockLink block ≠ []
  · rw [parseRssStep_kept block hk, List.mem_singleton] at hit
    exact ⟨block, hb, hk.1, hk.2, hit⟩
  · rw [parseRssStep_dropped block hk] at hit
    exact absurd hit (List.not_mem_nil _)

theorem itemFold_eq (dateParse : JSString → Option Int) (feed : FeedSource)
    (items : List RawFeedItem) :
    ∀ all : List OutputRecord,
      items.foldl (itemStep dateParse feed) all = all ++
        (items.filter (fun it => matchesKeywords (some (blobOf it)))).map
          (mkRecord dateParse feed) := by
  induction items with
  | nil => intro all; simp
  | cons it items ih =>
    intro all
    rw [List.foldl_cons, ih, List.filter_cons]
    unfold itemStep
    by_cases h : matchesKeywords (some (blobOf it)) = true
    · simp only [if_pos h, List.map_cons, List.append_assoc, List.singleton_append]
    · simp only [if_neg h]

/-- The records that the feed loop appends for a list of feeds: for each feed
whose fetch succeeds, the records of its matching items, in document order. -/
theorem feedFold_all (fetch : JSString → Except JSString Response)
    (dateParse : JSString → Option Int) (feeds : List FeedSource) :
    ∀ st : RunState,
      (feeds.foldl (feedStep fetch dateParse) st).all = st.all ++
        feeds.flatMap (fun feed =>
          match fetchText fetch feed.url with
          | .ok xml => ((parseRss xml).filter
              (fun it => matchesKeywords (some (blobOf it)))).map (mkRecord dateParse feed)
          | .error _ => []) := by
  induction feeds with
  | nil => intro st; simp
  | cons feed feeds ih =>
    intro st
    rw [List.foldl_cons, ih, List.flatMap_cons, ← List.append_assoc]
    congr 1
    unfold feedStep
    cases hf : fetchText fetch feed.url with
    | error msg => simp
    | ok xml => simp [itemFold_eq]

theorem mem_collect_all (fetch : JSString → Except JSString Response)
    (dateParse : JSString → Option Int) (r : OutputRecord)
    (h : r ∈ (collect fetch dateParse).all) :
    ∃ feed ∈ FEEDS, ∃ xml, fetchText fetch feed.url = .ok xml ∧
      ∃ it ∈ parseRss xml, matchesKeywords (some (blobOf it)) = true ∧
        r = mkRecord dateParse feed it := by
  unfold collect at h
  rw [feedFold_all, List.nil_append, List.mem_flatMap] at h
  obtain ⟨feed, hfeed, hr⟩ := h
  cases hf : fetchText fetch feed.url with
  | error msg =>
    rw [hf] at hr
    exact absurd hr (List.not_mem_nil _)
  | ok xml =>
    rw [hf] at hr
    simp only [List.mem_map, List.mem_filter] at hr
    obtain ⟨it, ⟨hit, hm⟩, rfl⟩ := hr
    exact ⟨feed, hfeed, xml, hf, it, hit, hm, rfl⟩

theorem mem_snapshot_items (now : JSString) (all : List OutputRecord) (r : OutputRecord)
    (h : r ∈ (buildSnapshot now all).items) : r ∈ all := by
  have h1 : r ∈ sortRecords (dedupByUrl all) := List.mem_of_mem_take h
  have h2 : r ∈ dedupByUrl all := (sortRecords_perm _).mem_iff.1 h1
  exact (dedupByUrl_sublist all).subset h2

/-! ## Literal tags in a text -/

/-- A literal has no border when no proper non-empty suffix of it is a prefix of
it: two occurrences of it in a text cannot overlap. -/
theorem no_match_before_literal (sep p p1 p2 r : JSString)
    (hb : ∀ k < sep.length, 0 < k → ¬ sep.drop k <+: sep)
    (hp : ¬ sep <:+: p) (hsplit : p = p1 ++ p2) (hp2 : p2 ≠ []) :
    ¬ sep <+: p2 ++ (sep ++ r) := by
  intro h
  have hinf : ∀ q, sep <+: q → q <:+: p2 → False := by
    intro q hq hq2
    apply hp
    rw [hsplit]
    exact (hq.isInfix.trans hq2).trans (List.suffix_append p1 p2).isInfix
  rcases List.prefix_or_prefix_of_prefix h (List.prefix_append p2 (sep ++ r)) with h1 | h1
  · exact hinf p2 h1 (List.infix_refl _)
  · obtain ⟨x, hx⟩ := h1
    have hk : sep.drop p2.length = x := by
      rw [← hx, List.drop_left]
    have hlen : sep.length = p2.length + x.length := by
      rw [← hx, List.length_append]
    have hxs : x <+: sep ++ r := by
      have h' : p2 ++ x <+: p2 ++ (sep ++ r) := by rw [hx]; exact h
      exact (List.prefix_append_right_inj p2).1 h'
    have hxp : x <+: sep :=
      List.prefix_of_prefix_length_le hxs (List.prefix_append sep r) (by omega)
    have hpos : 0 < p2.length := List.length_pos.2 hp2
    by_cases hx0 : x = []
    · subst hx0
      rw [List.append_nil] at hx
      exact hinf p2 (by rw [hx]) (List.infix_refl _)
    · have hxl : 0 < x.length := List.length_pos.2 hx0
      exact hb p2.length (by omega) hpos (by rw [hk]; exact hxp)

theorem no_match_before_end (sep p p1 p2 : JSString)
    (hp : ¬ sep <:+: p) (hsplit : p = p1 ++ p2) :
    ¬ sep <+: p2 ++ [] := by
  intro h
  apply hp
  rw [hsplit]
  rw [List.append_nil] at h
  exact h.isInfix.trans (List.suffix_append p1 p2).isInfix

/-! ## `split`: lemmas -/

theorem splitGo_zero_cons (sep : JSString) (c : Nat) (cs cur : JSString) :
    splitGo sep 0 (c :: cs) cur =
      if sep.isPrefixOf (c :: cs) then cur :: splitGo sep (sep.length - 1) cs []
      else splitGo sep 0 cs (cur ++ [c]) := by
  rw [splitGo]

theorem splitGo_succ_cons (sep : JSString) (k c : Nat) (cs cur : JSString) :
    splitGo sep (k + 1) (c :: cs) cur = splitGo sep k cs cur := by
  rw [splitGo]

theorem splitGo_skip (sep : JSString) (u : JSString) :
    ∀ (rest cur : JSString), splitGo sep u.length (u ++ rest) cur = splitGo sep 0 rest cur := by
  induction u with
  | nil => intro rest cur; rfl
  | cons c u ih =>
    intro rest cur
    rw [List.length_cons, List.cons_append, splitGo_succ_cons]
    exact ih rest cur

theorem splitGo_scan (sep rest : JSString) (p : JSString) :
    ∀ cur : JSString,
      (∀ p1 p2, p = p1 ++ p2 → p2 ≠ [] → ¬ sep <+: p2 ++ rest) →
      splitGo sep 0 (p ++ rest) cur = splitGo sep 0 rest (cur ++ p) := by
  induction p with
  | nil => intro cur _; simp
  | cons c p ih =>
    intro cur h
    have h0 : ¬ sep.isPrefixOf (c :: (p ++ rest)) = true := by
      rw [List.isPrefixOf_iff_prefix]
      exact h [] (c :: p) rfl (List.cons_ne_nil _ _)
    have ih' := ih (cur ++ [c]) (fun p1 p2 hs hne => h (c :: p1) p2 (by rw [hs]; rfl) hne)
    rw [List.cons_append, splitGo_zero_cons, if_neg h0, ih']
    simp

theorem splitGo_literal (c : Nat) (w rest cur : JSString) :
    splitGo (c :: w) 0 ((c :: w) ++ rest) cur = cur :: splitGo (c :: w) 0 rest [] := by
  have h0 : (c :: w).isPrefixOf (c :: (w ++ rest)) = true := by
    rw [List.isPrefixOf_iff_prefix]
    exact List.prefix_append (c :: w) rest
  rw [List.cons_append, splitGo_zero_cons, if_pos h0, List.length_cons, Nat.add_sub_cancel,
    splitGo_skip]

theorem item_no_border :
    ∀ k < (str "<item>").length, 0 < k → ¬ (str "<item>").drop k <+: str "<item>" := by
  decide

theorem splitGo_blocks (bs : List JSString) :
    ∀ (p cur : JSString), ¬ str "<item>" <:+: p → (∀ b ∈ bs, ¬ str "<item>" <:+: b) →
      splitGo (str "<item>") 0 (p ++ bs.flatMap (fun b => str "<item>" ++ b)) cur =
        (cur ++ p) :: bs := by
  induction bs with
  | nil =>
    intro p cur hp _
    rw [List.flatMap_nil, splitGo_scan _ _ _ _ (fun p1 p2 hs _ =>
      no_match_before_end _ p p1 p2 hp hs)]
    rfl
  | cons b bs ih =>
    intro p cur hp hbs
    have hb : ¬ str "<item>" <:+: b := hbs b (List.mem_cons_self _ _)
    have hrest : ∀ b' ∈ bs, ¬ str "<item>" <:+: b' :=
      fun b' hb' => hbs b' (List.mem_cons_of_mem _ hb')
    rw [List.flatMap_cons, List.append_assoc, splitGo_scan _ _ _ _ (fun p1 p2 hs hne =>
      no_match_before_literal _ p p1 p2 _ item_no_border hp hs hne)]
    have hi : str "<item>" = 60 :: [105, 116, 101, 109, 62] := by decide
    rw [hi, splitGo_literal, ← hi, ih b [] hb hrest]
    rfl

theorem itemBlocks_of_blocks (pre : JSString) (bs : List JSString)
    (hpre : ¬ str "<item>" <:+: pre) (hbs : ∀ b ∈ bs, ¬ str "<item>" <:+: b) :
    itemBlocks (pre ++ bs.flatMap (fun b => str "<item>" ++ b)) = bs := by
  unfold itemBlocks split
  rw [splitGo_blocks bs pre [] hpre hbs]
  rfl

/-! ## The patterns: lemmas -/

theorem matchHere_none_of_absent (dot : Nat → Bool) (opn close s : JSString)
    (h : ¬ opn <+: s) : matchHere dot opn close s = none := by
  unfold matchHere
  rw [if_neg (by rw [List.isPrefixOf_iff_prefix]; exact h)]

theorem regexCapture_none_of_absent (dot : Nat → Bool) (opn close : JSString)
    (s : JSString) (h : ¬ opn <:+: s) : regexCapture dot opn close s = none := by
  induction s with
  | nil =>
    unfold regexCapture
    exact matchHere_none_of_absent _ _ _ _ (fun hp => h hp.isInfix)
  | cons c cs ih =>
    unfold regexCapture
    rw [matchHere_none_of_absent _ _ _ _ (fun hp => h hp.isInfix)]
    exact ih (fun hi => h (List.infix_cons hi))

theorem regexCapture_scan (dot : Nat → Bool) (opn close rest : JSString) (a : JSString) :
    (∀ p1 p2, a = p1 ++ p2 → p2 ≠ [] → ¬ opn <+: p2 ++ rest) →
    regexCapture dot opn close (a ++ rest) = regexCapture dot opn close rest := by
  induction a with
  | nil => intro _; rfl
  | cons c a ih =>
    intro h
    have h0 : ¬ opn <+: c :: (a ++ rest) := h [] (c :: a) rfl (List.cons_ne_nil _ _)
    rw [List.cons_append, regexCapture, matchHere_none_of_absent _ _ _ _ h0]
    exact ih (fun p1 p2 hs hne => h (c :: p1) p2 (by rw [hs]; rfl) hne)

theorem matchHere_literal (dot : Nat → Bool) (opn close s : JSString) :
    matchHere dot opn close (opn ++ s) = lazyUntil dot close s := by
  unfold matchHere
  rw [if_pos (by rw [List.isPrefixOf_iff_prefix]; exact List.prefix_append opn s),
    List.drop_left]

theorem regexCapture_literal (dot : Nat → Bool) (opn close s t : JSString)
    (h : lazyUntil dot close s = some t) :
    regexCapture dot opn close (opn ++ s) = some t := by
  have hm := matchHere_literal dot opn close s
  rw [h] at hm
  cases hos : opn ++ s with
  | nil => rw [hos] at hm; unfold regexCapture; exact hm
  | cons c cs => rw [hos] at hm; unfold regexCapture; rw [hm]

theorem lazyUntil_text (dot : Nat → Bool) (close rest : JSString) (t : JSString) :
    (∀ c ∈ t, dot c = true) →
    (∀ t1 t2, t = t1 ++ t2 → t2 ≠ [] → ¬ close <+: t2 ++ (close ++ rest)) →
    lazyUntil dot close (t ++ (close ++ rest)) = some t := by
  induction t with
  | nil =>
    intro _ _
    have hp : close.isPrefixOf (close ++ rest) = true := by
      rw [List.isPrefixOf_iff_prefix]; exact List.prefix_append close rest
    rw [List.nil_append]
    cases hcr : close ++ rest with
    | nil => rw [hcr] at hp; unfold lazyUntil; rw [if_pos hp]
    | cons c cs => rw [hcr] at hp; unfold lazyUntil; rw [if_pos hp]
  | cons c t ih =>
    intro hdot h
    have h0 : ¬ close.isPrefixOf (c :: (t ++ (close ++ rest))) = true := by
      rw [List.isPrefixOf_iff_prefix]
      exact h [] (c :: t) rfl (List.cons_ne_nil _ _)
    have hc : dot c = true := hdot c (List.mem_cons_self _ _)
    rw [List.cons_append, lazyUntil, if_neg h0, if_pos hc,
      ih (fun d hd => hdot d (List.mem_cons_of_mem _ hd))
        (fun t1 t2 hs hne => h (c :: t1) t2 (by rw [hs]; rfl) hne)]
    rfl

/-- The capture of the pattern `opn(D*?)close` on a text whose first `opn` is
followed by `t` and `close`, for literals without border. -/
theorem regexCapture_element (dot : Nat → Bool) (opn close a t r : JSString)
    (hbo : ∀ k < opn.length, 0 < k → ¬ opn.drop k <+: opn)
    (hbc : ∀ k < close.length, 0 < k → ¬ close.drop k <+: close)
    (ha : ¬ opn <:+: a) (ht : ¬ close <:+: t) (hdot : ∀ c ∈ t, dot c = true) :
    regexCapture dot opn close (a ++ opn ++ t ++ close ++ r) = some t := by
  have e : a ++ opn ++ t ++ close ++ r = a ++ (opn ++ (t ++ (close ++ r))) := by
    simp only [List.append_assoc]
  rw [e, regexCapture_scan dot opn close _ a (fun p1 p2 hs hne =>
    no_match_before_literal opn a p1 p2 _ hbo ha hs hne)]
  exact regexCapture_literal dot opn close _ t
    (lazyUntil_text dot close r t hdot (fun t1 t2 hs hne =>
      no_match_before_literal close t t1 t2 r hbc ht hs hne))

/-! ## Blocks with a title and a link: lemmas -/

theorem cdataTitleOpen_no_border :
    ∀ k < (str "<title><![CDATA[").length, 0 < k →
      ¬ (str "<title><![CDATA[").drop k <+: str "<title><![CDATA[" := by
  decide

theorem cdataTitleClose_no_border :
    ∀ k < (str "]]></title>").length, 0 < k →
      ¬ (str "]]></title>").drop k <+: str "]]></title>" := by
  decide

theorem titleOpen_no_border :
    ∀ k < (str "<title>").length, 0 < k → ¬ (str "<title>").drop k <+: str "<title>" := by
  decide

theorem titleClose_no_border :
    ∀ k < (str "</title>").length, 0 < k → ¬ (str "</title>").drop k <+: str "</title>" := by
  decide

theorem linkOpen_no_border :
    ∀ k < (str "<link>").length, 0 < k → ¬ (str "<link>").drop k <+: str "<link>" := by
  decide

theorem linkClose_no_border :
    ∀ k < (str "</link>").length, 0 < k → ¬ (str "</link>").drop k <+: str "</link>" := by
  decide

theorem blockTitle_of_hasTitle (block title : JSString) (h : HasTitle block title)
    (hdot : ∀ c ∈ title, isDot c = true) : blockTitle block = trim title := by
  unfold blockTitle
  rcases h with ⟨a, r, rfl, ha, ht⟩ | ⟨hno, a, r, rfl, ha, ht⟩
  · rw [regexCapture_element isDot _ _ a title r cdataTitleOpen_no_border
      cdataTitleClose_no_border ha ht hdot]
    rfl
  · rw [regexCapture_none_of_absent isDot _ _ _ hno,
      regexCapture_element isDot _ _ a title r titleOpen_no_border
        titleClose_no_border ha ht hdot]
    rfl

theorem blockLink_of_hasElement (block link : JSString)
    (h : HasElement (str "<link>") (str "</link>") block link)
    (hdot : ∀ c ∈ link, isDot c = true) : blockLink block = trim link := by
  unfold blockLink
  obtain ⟨a, r, rfl, ha, ht⟩ := h
  rw [regexCapture_element isDot _ _ a link r linkOpen_no_border linkClose_no_border ha ht hdot]
  rfl

theorem trim_nil : trim [] = [] := by decide

theorem blockTitle_of_no_title (block : JSString) (h : ¬ str "<title>" <:+: block) :
    blockTitle block = [] := by
  have hc : ¬ str "<title><![CDATA[" <:+: block := by
    intro hi
    apply h
    have hp : str "<title>" <+: str "<title><![CDATA[" := by decide
    exact hp.isInfix.trans hi
  unfold blockTitle
  rw [regexCapture_none_of_absent isDot _ _ _ hc,
    regexCapture_none_of_absent isDot _ _ _ h]
  exact trim_nil

theorem blockLink_of_no_link (block : JSString) (h : ¬ str "<link>" <:+: block) :
    blockLink block = [] := by
  unfold blockLink
  rw [regexCapture_none_of_absent isDot _ _ _ h]
  exact trim_nil

theorem parseRssStep_nil_iff (block : JSString) :
    parseRssStep [] block = [] ↔ (blockTitle block = [] ∨ blockLink block = []) := by
  by_cases hk : blockTitle block ≠ [] ∧ blockLink block ≠ []
  · rw [parseRssStep_kept block hk]
    constructor
    · intro h; exact absurd h (List.cons_ne_nil _ _)
    · rintro (h | h)
      · exact absurd h hk.1
      · exact absurd h hk.2
  · rw [parseRssStep_dropped block hk]
    constructor
    · intro _
      by_cases ht : blockTitle block = []
      · exact Or.inl ht
      · by_cases hl : blockLink block = []
        · exact Or.inr hl
        · exact absurd ⟨ht, hl⟩ hk
    · intro _; rfl

theorem parseRssSteps_length (bs : List JSString) :
    (bs.flatMap (parseRssStep [])).length +
        (bs.filter (fun b => decide (blockTitle b = [] ∨ blockLink b = []))).length =
      bs.length := by
  induction bs with
  | nil => rfl
  | cons b bs ih =>
    rw [List.flatMap_cons, List.length_append, List.filter_cons, List.length_cons]
    by_cases hk : blockTitle b ≠ [] ∧ blockLink b ≠ []
    · have hn : ¬ (blockTitle b = [] ∨ blockLink b = []) := by
        rintro (h | h)
        · exact hk.1 h
        · exact hk.2 h
      rw [parseRssStep_kept b hk, if_neg (by simpa using hn)]
      simp only [List.length_singleton]
      omega
    · have hd : blockTitle b = [] ∨ blockLink b = [] := (parseRssStep_nil_iff b).1
        (parseRssStep_dropped b hk)
      rw [parseRssStep_dropped b hk, if_pos (by simpa using hd)]
      simp only [List.length_nil, List.length_cons]
      omega

theorem parseRssSteps_wellFormed (bs : List (JSString × JSString × JSString))
    (hbs : ∀ b ∈ bs, WellFormedBlock b.1 b.2.1 b.2.2) :
    ((bs.map (fun b => b.1)).flatMap (parseRssStep [])).map (fun it => (it.title, it.link)) =
      bs.map (fun b => (trim b.2.1, trim b.2.2)) := by
  induction bs with
  | nil => rfl
  | cons b bs ih =>
    have hb := hbs b (List.mem_cons_self _ _)
    have ht := blockTitle_of_hasTitle b.1 b.2.1 hb.hasTitle hb.titleOneLine
    have hl := blockLink_of_hasElement b.1 b.2.2 hb.hasLink hb.linkOneLine
    have hk : blockTitle b.1 ≠ [] ∧ blockLink b.1 ≠ [] := by
      rw [ht, hl]
      exact ⟨hb.titleNotBlank, hb.linkNotBlank⟩
    rw [List.map_cons, List.flatMap_cons, parseRssStep_kept b.1 hk, List.map_append,
      ih (fun b' hb' => hbs b' (List.mem_cons_of_mem _ hb')), List.map_cons]
    simp only [List.map_cons, List.map_nil, List.singleton_append, ht, hl]

/-! ## The feed loop: error lines -/

theorem feedFold_errors (fetch : JSString → Except JSString Response)
    (dateParse : JSString → Option Int) (feeds : List FeedSource) :
    ∀ st : RunState,
      (feeds.foldl (feedStep fetch dateParse) st).errors = st.errors ++
        feeds.flatMap (fun feed =>
          match fetchText fetch feed.url with
          | .ok _ => []
          | .error msg => [str "[" ++ feed.id ++ str "] " ++ msg]) := by
  induction feeds with
  | nil => intro st; simp
  | cons feed feeds ih =>
    intro st
    rw [List.foldl_cons, ih, List.flatMap_cons, ← List.append_assoc]
    congr 1
    unfold feedStep
    cases hf : fetchText fetch feed.url with
    | error msg => simp
    | ok xml => simp

theorem feedFold_all_failed (fetch : JSString → Except JSString Response)
    (dateParse : JSString → Option Int) (feeds : List FeedSource)
    (h : ∀ feed ∈ feeds, ∃ msg, fetchText fetch feed.url = .error msg) :
    ∀ st : RunState, (feeds.foldl (feedStep fetch dateParse) st).all = st.all ∧
      (feeds.foldl (feedStep fetch dateParse) st).errors.length =
        st.errors.length + feeds.length := by
  induction feeds with
  | nil => intro st; simp
  | cons feed feeds ih =>
    intro st
    obtain ⟨msg, hmsg⟩ := h feed (List.mem_cons_self _ _)
    have hstep : feedStep fetch dateParse st feed =
        { st with errors := st.errors ++ [str "[" ++ feed.id ++ str "] " ++ msg] } := by
      unfold feedStep
      rw [hmsg]
    obtain ⟨h1, h2⟩ := ih (fun f hf => h f (List.mem_cons_of_mem _ hf))
      (feedStep fetch dateParse st feed)
    rw [List.foldl_cons]
    refine ⟨by rw [h1, hstep], ?_⟩
    have hl : (feedStep fetch dateParse st feed).errors.length = st.errors.length + 1 := by
      rw [hstep]
      simp
    rw [h2, hl, List.length_cons]
    omega

/-! ## Sorting: order and stability -/

theorem mem_sortInsert (a x : OutputRecord) (l : List OutputRecord) :
    x ∈ sortInsert a l ↔ x = a ∨ x ∈ l := by
  rw [(sortInsert_perm a l).mem_iff, List.mem_cons]

theorem sortInsert_cons (a b : OutputRecord) (l : List OutputRecord) :
    sortInsert a (b :: l) =
      if compareFn a b ≤ 0 then a :: b :: l else b :: sortInsert a l := by
  rw [sortInsert]

theorem sortInsert_pairwise (a : OutputRecord) (l : List OutputRecord)
    (h : l.Pairwise (fun x y => timeOf y ≤ timeOf x)) :
    (sortInsert a l).Pairwise (fun x y => timeOf y ≤ timeOf x) := by
  induction l with
  | nil => simp [sortInsert]
  | cons b l ih =>
    rw [sortInsert_cons]
    rw [List.pairwise_cons] at h
    by_cases hc : compareFn a b ≤ 0
    · rw [if_pos hc, List.pairwise_cons]
      have hab : timeOf b ≤ timeOf a := by
        unfold compareFn at hc
        omega
      refine ⟨?_, List.pairwise_cons.2 h⟩
      intro x hx
      rcases List.mem_cons.1 hx with rfl | hx
      · exact hab
      · exact le_trans (h.1 x hx) hab
    · rw [if_neg hc, List.pairwise_cons]
      have hab : timeOf a ≤ timeOf b := by
        unfold compareFn at hc
        omega
      refine ⟨?_, ih h.2⟩
      intro x hx
      rcases (mem_sortInsert a x l).1 hx with rfl | hx
      · exact hab
      · exact h.1 x hx

theorem sortRecords_pairwise (l : List OutputRecord) :
    (sortRecords l).Pairwise (fun x y => timeOf y ≤ timeOf x) := by
  induction l with
  | nil => simp [sortRecords]
  | cons a l ih =>
    rw [sortRecords]
    exact sortInsert_pairwise a _ ih

theorem sortInsert_filter_time (k : Int) (a : OutputRecord) (l : List OutputRecord) :
    (sortInsert a l).filter (fun r => decide (timeOf r = k)) =
      (a :: l).filter (fun r => decide (timeOf r = k)) := by
  induction l with
  | nil => simp [sortInsert]
  | cons b l ih =>
    rw [sortInsert_cons]
    by_cases hc : compareFn a b ≤ 0
    · rw [if_pos hc]
    · rw [if_neg hc]
      have hab : timeOf a ≠ timeOf b := by
        unfold compareFn at hc
        omega
      rw [List.filter_cons, ih]
      by_cases hak : timeOf a = k
      · have hbk : ¬ timeOf b = k := fun hb => hab (hak.trans hb.symm)
        simp [List.filter_cons, hak, hbk]
      · simp [List.filter_cons, hak]

theorem sortRecords_filter_time (k : Int) (l : List OutputRecord) :
    (sortRecords l).filter (fun r => decide (timeOf r = k)) =
      l.filter (fun r => decide (timeOf r = k)) := by
  induction l with
  | nil => simp [sortRecords]
  | cons a l ih =>
    rw [sortRecords, sortInsert_filter_time, List.filter_cons, List.filter_cons, ih]

/-! ## `stripHtml`: lemmas -/

theorem replaceTags_nil (f : Bool) : replaceTags f [] = [] := by
  cases f <;> rfl

theorem replaceTags_true_cons (c : Nat) (cs : JSString) :
    replaceTags true (c :: cs) =
      if c = 62 then replaceTags false cs else replaceTags true cs := by
  rw [replaceTags]

theorem replaceTags_false_cons (c : Nat) (cs : JSString) :
    replaceTags false (c :: cs) =
      if c = 60 ∧ cs.contains 62 then 32 :: replaceTags true cs
      else c :: replaceTags false cs := by
  rw [replaceTags]

theorem collapseWhite_nil (f : Bool) : collapseWhite f [] = [] := by
  cases f <;> rfl

theorem collapseWhite_cons (f : Bool) (c : Nat) (cs : JSString) :
    collapseWhite f (c :: cs) =
      if isWhite c then
        if f then collapseWhite true cs else 32 :: collapseWhite true cs
      else c :: collapseWhite false cs := by
  rw [collapseWhite]

theorem mem_replaceTags (l : JSString) :
    ∀ (f : Bool) (b : Nat), b ∈ replaceTags f l → b = 32 ∨ b ∈ l := by
  induction l with
  | nil => intro f b h; rw [replaceTags_nil] at h; exact absurd h (List.not_mem_nil _)
  | cons c cs ih =>
    intro f b h
    cases f with
    | true =>
      rw [replaceTags_true_cons] at h
      split at h
      · exact (ih false b h).imp id (List.mem_cons_of_mem _)
      · exact (ih true b h).imp id (List.mem_cons_of_mem _)
    | false =>
      rw [replaceTags_false_cons] at h
      split at h
      · rcases List.mem_cons.1 h with rfl | h
        · exact Or.inl rfl
        · exact (ih true b h).imp id (List.mem_cons_of_mem _)
      · rcases List.mem_cons.1 h with rfl | h
        · exact Or.inr (List.mem_cons_self _ _)
        · exact (ih false b h).imp id (List.mem_cons_of_mem _)

theorem replaceTags_pairwise (l : JSString) :
    ∀ f : Bool, (replaceTags f l).Pairwise (fun a b : Nat => ¬ (a = 60 ∧ b = 62)) := by
  induction l with
  | nil => intro f; rw [replaceTags_nil]; exact List.Pairwise.nil
  | cons c cs ih =>
    intro f
    cases f with
    | true =>
      rw [replaceTags_true_cons]
      split
      · exact ih false
      · exact ih true
    | false =>
      rw [replaceTags_false_cons]
      by_cases h : c = 60 ∧ cs.contains 62
      · rw [if_pos h, List.pairwise_cons]
        exact ⟨fun b _ hb => by omega, ih true⟩
      · rw [if_neg h, List.pairwise_cons]
        refine ⟨?_, ih false⟩
        rintro b hb ⟨hc, hb2⟩
        apply h
        refine ⟨hc, ?_⟩
        rcases mem_replaceTags cs false b hb with h32 | hmem
        · omega
        · subst hb2
          simpa using hmem

theorem replaceTags_of_pairwise (l : JSString)
    (h : l.Pairwise (fun a b : Nat => ¬ (a = 60 ∧ b = 62))) : replaceTags false l = l := by
  induction l with
  | nil => rfl
  | cons c cs ih =>
    rw [List.pairwise_cons] at h
    have hn : ¬ (c = 60 ∧ cs.contains 62) := by
      rintro ⟨hc, hm⟩
      exact h.1 62 (by simpa using hm) ⟨hc, rfl⟩
    rw [replaceTags_false_cons, if_neg hn, ih h.2]

theorem mem_collapseWhite (l : JSString) :
    ∀ (f : Bool) (b : Nat), b ∈ collapseWhite f l → b = 32 ∨ (b ∈ l ∧ isWhite b = false) := by
  induction l with
  | nil => intro f b h; rw [collapseWhite_nil] at h; exact absurd h (List.not_mem_nil _)
  | cons c cs ih =>
    intro f b h
    rw [collapseWhite_cons] at h
    have lift : (b = 32 ∨ (b ∈ cs ∧ isWhite b = false)) →
        b = 32 ∨ (b ∈ c :: cs ∧ isWhite b = false) :=
      fun hh => hh.imp id (fun hm => ⟨List.mem_cons_of_mem _ hm.1, hm.2⟩)
    by_cases hw : isWhite c = true
    · rw [if_pos hw] at h
      cases f with
      | true => exact lift (ih true b h)
      | false =>
        simp only [Bool.false_eq_true, if_false] at h
        rcases List.mem_cons.1 h with rfl | h
        · exact Or.inl rfl
        · exact lift (ih true b h)
    · rw [if_neg hw] at h
      rcases List.mem_cons.1 h with rfl | h
      · exact Or.inr ⟨List.mem_cons_self _ _, by simpa using hw⟩
      · exact lift (ih false b h)

theorem collapseWhite_pairwise (l : JSString) :
    ∀ f : Bool, l.Pairwise (fun a b : Nat => ¬ (a = 60 ∧ b = 62)) →
      (collapseWhite f l).Pairwise (fun a b : Nat => ¬ (a = 60 ∧ b = 62)) := by
  induction l with
  | nil => intro f _; rw [collapseWhite_nil]; exact List.Pairwise.nil
  | cons c cs ih =>
    intro f h
    rw [List.pairwise_cons] at h
    rw [collapseWhite_cons]
    by_cases hw : isWhite c = true
    · rw [if_pos hw]
      cases f with
      | true => exact ih true h.2
      | false =>
        simp only [Bool.false_eq_true, if_false]
        rw [List.pairwise_cons]
        exact ⟨fun b _ hb => by omega, ih true h.2⟩
    · rw [if_neg hw, List.pairwise_cons]
      refine ⟨?_, ih false h.2⟩
      intro b hb
      rcases mem_collapseWhite cs false b hb with h32 | hmem
      · omega
      · exact h.1 b hmem.1

/-- Every white code unit of a collapsed text is a space, no two white code
units are adjacent, and after a white code unit just replaced the text does
not start with one. -/
theorem collapseWhite_single_spaces (l : JSString) :
    ∀ f : Bool,
      (collapseWhite f l).Chain' (fun a b : Nat => ¬ (isWhite a = true ∧ isWhite b = true)) ∧
        (f = true → ∀ x ∈ (collapseWhite f l).head?, isWhite x = false) := by
  induction l with
  | nil =>
    intro f
    rw [collapseWhite_nil]
    exact ⟨List.chain'_nil, fun _ x hx => by simp at hx⟩
  | cons c cs ih =>
    intro f
    rw [collapseWhite_cons]
    by_cases hw : isWhite c = true
    · rw [if_pos hw]
      cases f with
      | true =>
        rw [if_pos rfl]
        exact ih true
      | false =>
        simp only [Bool.false_eq_true, if_false]
        refine ⟨?_, fun hf => by simp at hf⟩
        rw [List.chain'_cons']
        refine ⟨?_, (ih true).1⟩
        intro y hy hboth
        have := (ih true).2 rfl y hy
        rw [this] at hboth
        exact Bool.false_ne_true hboth.2
    · rw [if_neg hw]
      have hc : isWhite c = false := by simpa using hw
      refine ⟨?_, fun _ x hx => ?_⟩
      · rw [List.chain'_cons']
        refine ⟨?_, (ih false).1⟩
        intro y _ hboth
        rw [hc] at hboth
        exact Bool.false_ne_true hboth.1
      · simp only [List.head?_cons, Option.mem_def, Option.some.injEq] at hx
        rw [← hx]
        exact hc

theorem collapseWhite_of_single_spaces (l : JSString) :
    (∀ c ∈ l, isWhite c = true → c = 32) →
    l.Chain' (fun a b : Nat => ¬ (isWhite a = true ∧ isWhite b = true)) →
    collapseWhite false l = l ∧
      ((∀ x ∈ l.head?, isWhite x = false) → collapseWhite true l = l) := by
  induction l with
  | nil => intro _ _; exact ⟨rfl, fun _ => rfl⟩
  | cons c cs ih =>
    intro hsp hch
    rw [List.chain'_cons'] at hch
    obtain ⟨ih1, ih2⟩ := ih (fun d hd => hsp d (List.mem_cons_of_mem _ hd)) hch.2
    by_cases hw : isWhite c = true
    · have hc32 : c = 32 := hsp c (List.mem_cons_self _ _) hw
      have hnext : ∀ x ∈ cs.head?, isWhite x = false := by
        intro x hx
        have := hch.1 x hx
        cases hxw : isWhite x with
        | false => rfl
        | true => exact absurd ⟨hw, hxw⟩ this
      refine ⟨?_, ?_⟩
      · rw [collapseWhite_cons, if_pos hw]
        simp only [Bool.false_eq_true, if_false]
        rw [ih2 hnext, hc32]
      · intro hhead
        have := hhead c (by simp)
        rw [hw] at this
        exact absurd this (by simp)
    · refine ⟨?_, fun _ => ?_⟩
      · rw [collapseWhite_cons, if_neg hw, ih1]
      · rw [collapseWhite_cons, if_neg hw, ih1]

/-! ## `trim`: lemmas -/

theorem trimEnd_isPrefix (s : JSString) : trimEnd s <+: s := by
  unfold trimEnd
  have h : (s.reverse.dropWhile isWhite).reverse <+: s.reverse.reverse :=
    List.reverse_prefix.2 (List.dropWhile_suffix isWhite)
  rwa [List.reverse_reverse] at h

theorem trim_isInfix (s : JSString) : trim s <:+: s := by
  unfold trim trimStart
  exact (trimEnd_isPrefix _).isInfix.trans (List.dropWhile_suffix isWhite).isInfix

theorem trim_last_not_white (s : JSString) (h : trim s ≠ []) :
    isWhite ((trim s).getLast h) = false := by
  unfold trim trimEnd at h ⊢
  rw [List.getLast_reverse]
  exact List.head_dropWhile_not isWhite _ _

theorem trim_head_not_white (s : JSString) (h : trim s ≠ []) :
    isWhite ((trim s).head h) = false := by
  have hp : trim s <+: trimStart s := trimEnd_isPrefix _
  have hne : trimStart s ≠ [] := by
    intro hc
    rw [hc] at hp
    exact h (List.prefix_nil.1 hp)
  rw [List.IsPrefix.head hp h]
  exact List.head_dropWhile_not isWhite s hne

theorem trim_of_not_white (s : JSString)
    (hh : ∀ h : s ≠ [], isWhite (s.head h) = false)
    (hl : ∀ h : s ≠ [], isWhite (s.getLast h) = false) : trim s = s := by
  cases s with
  | nil => rfl
  | cons c cs =>
    have h1 : trimStart (c :: cs) = c :: cs := by
      unfold trimStart
      have := hh (List.cons_ne_nil _ _)
      rw [List.head_cons] at this
      rw [List.dropWhile_cons_of_neg (by rw [this]; simp)]
    unfold trim
    rw [h1]
    unfold trimEnd
    have hr : (c :: cs).reverse ≠ [] := by simp
    have h2 : (c :: cs).reverse.dropWhile isWhite = (c :: cs).reverse := by
      obtain ⟨d, ds, hd⟩ := List.exists_cons_of_ne_nil hr
      have hlast := hl (List.cons_ne_nil _ _)
      have hd' : (c :: cs).getLast (List.cons_ne_nil _ _) = d := by
        have := List.head_reverse hr
        rw [← this]
        simp [hd]
      rw [hd'] at hlast
      rw [hd, List.dropWhile_cons_of_neg (by rw [hlast]; simp)]
    rw [h2, List.reverse_reverse]

/-! ## `stripHtml`: the shape of the result -/

theorem stripHtml_pairwise (html : Option JSString) :
    (stripHtml html).Pairwise (fun a b : Nat => ¬ (a = 60 ∧ b = 62)) := by
  unfold stripHtml
  exact (collapseWhite_pairwise _ false (replaceTags_pairwise _ false)).sublist
    (trim_isInfix _).sublist

theorem stripHtml_white_is_space (html : Option JSString) :
    ∀ c ∈ stripHtml html, isWhite c = true → c = 32 := by
  intro c hc hw
  unfold stripHtml at hc
  rcases mem_collapseWhite _ false c ((trim_isInfix _).subset hc) with h | h
  · exact h
  · rw [h.2] at hw
    exact absurd hw (by simp)

theorem stripHtml_chain (html : Option JSString) :
    (stripHtml html).Chain' (fun a b : Nat => ¬ (isWhite a = true ∧ isWhite b = true)) := by
  unfold stripHtml
  exact List.Chain'.infix (collapseWhite_single_spaces _ false).1 (trim_isInfix _)

theorem stripHtml_fixed (html : Option JSString) :
    stripHtml (some (stripHtml html)) = stripHtml html := by
  have h1 := replaceTags_of_pairwise _ (stripHtml_pairwise html)
  have h2 := (collapseWhite_of_single_spaces _ (stripHtml_white_is_space html)
    (stripHtml_chain html)).1
  have h3 : trim (stripHtml html) = stripHtml html :=
    trim_of_not_white _ (fun h => trim_head_not_white _ h) (fun h => trim_last_not_white _ h)
  show trim (collapseWhite false (replaceTags false (stripHtml html))) = stripHtml html
  rw [h1, h2, h3]

/-! ## `pubDate` and the keyword list: lemmas -/

theorem blockPubDate_of_no_pubDate (block : JSString) (h : ¬ str "<pubDate>" <:+: block) :
    blockPubDate block = [] := by
  unfold blockPubDate
  rw [regexCapture_none_of_absent isDot _ _ _ h]
  exact trim_nil

theorem keywords_covered :
    ∀ k ∈ KEYWORDS, ∃ k' ∈ KEYWORDS.filter
        (fun k => !([str "LIRPF", str "LIRNR", str "LIS", str "LIVA"].contains k)),
      toLowerCase k' <:+: toLowerCase k := by
  decide

/-! ## `toISO`: lemmas -/

theorem isoText_ne_nil (t : Int) : isoText t ≠ [] := by
  intro h
  have hl := congrArg List.length h
  simp [isoText, str, encodeChar] at hl

theorem orNull_some (s : JSString) (h : s ≠ []) : orNull (some s) = some s := by
  show (if s = [] then none else some s) = some s
  rw [if_neg h]

theorem toISO_returns (dateParse : JSString → Option Int) (pubDate : JSString) :
    toISO dateParse pubDate = .ok ((dateParse pubDate).map isoText) := by
  unfold toISO
  cases dateParse pubDate with
  | none => rfl
  | some t => rfl

theorem mkRecord_date (dateParse : JSString → Option Int) (feed : FeedSource)
    (it : RawFeedItem) : (mkRecord dateParse feed it).date = dateParse it.pubDate := by
  show (match toISO dateParse it.pubDate with
    | .ok iso => (orNull iso).bind (fun _ => dateParse it.pubDate)
    | .error _ => none) = dateParse it.pubDate
  rw [toISO_returns]
  cases h : dateParse it.pubDate with
  | none => rfl
  | some t =>
    show (orNull (some (isoText t))).bind (fun _ => some t) = some t
    rw [orNull_some _ (isoText_ne_nil t)]
    rfl

/-! ## The snapshot: deduplication, order and truncation -/

/-- C1: for every array `all` of collected records, the deduplicated array has
no two records with the same `url`, and neither has `items` of the snapshot
built from it (after the sort and the truncation), whatever the feeds
returned. -/
theorem snapshot_items_urls_nodup (now : JSString) (all : List OutputRecord) :
    ((dedupByUrl all).map OutputRecord.url).Nodup ∧
      ((buildSnapshot now all).items.map OutputRecord.url).Nodup ∧
      ∀ (fetch : JSString → Except JSString Response) (dateParse : JSString → Option Int),
        ((main fetch dateParse now).items.map OutputRecord.url).Nodup := by
  have key : ∀ l : List OutputRecord,
      ((buildSnapshot now l).items.map OutputRecord.url).Nodup := by
    intro l
    have hs : ((sortRecords (dedupByUrl l)).map OutputRecord.url).Nodup :=
      (((sortRecords_perm (dedupByUrl l)).map OutputRecord.url).nodup_iff).2
        (dedupByUrl_urls_nodup l)
    exact hs.sublist ((List.take_sublist 30 _).map OutputRecord.url)
  exact ⟨dedupByUrl_urls_nodup all, key all, fun fetch dateParse => key _⟩

/-- C2: the dedup loop returns the records of `all` that are the first with
their `url`, in the order of `all`: the record at position `i` is kept exactly
when no record at a position before `i` has its `url`. Of two records that
differ only in `title`, the first alone is in the deduplicated array and in
`items`. -/
theorem dedup_keeps_first_occurrences (all : List OutputRecord) :
    dedupByUrl all =
        ((all.enum.filter (fun (p : Nat × OutputRecord) =>
          decide (∀ r ∈ all.take p.1, r.url ≠ p.2.url))).map Prod.snd) ∧
      (dedupByUrl all).Sublist all ∧
      ∀ (now : JSString) (a : OutputRecord) (t : JSString),
        dedupByUrl [a, { a with title := t }] = [a] ∧
          (buildSnapshot now [a, { a with title := t }]).items = [a] := by
  refine ⟨dedupByUrl_eq_positions all, dedupByUrl_sublist all, ?_⟩
  · intro now a t
    have hd : dedupByUrl [a, { a with title := t }] = [a] := by
      simp [dedupByUrl, dedupLoop, dedupStep]
    refine ⟨hd, ?_⟩
    simp [buildSnapshot, hd, sortRecords, sortInsert]

/-- C3 (evaluation of the code): a record dated 1969-12-31T00:00:00Z (time value
-86400000) followed by a record without date is sorted with the record
without date first, because the comparator gives it the time 0. -/
theorem sort_puts_absent_date_before_pre1970 (now : JSString) :
    (buildSnapshot now
        [ { source := str "TS", title := str "old", url := str "u1",
            date := some (-86400000), excerpt := str "" },
          { source := str "TS", title := str "undated", url := str "u2",
            date := none, excerpt := str "" } ]).items =
      [ { source := str "TS", title := str "undated", url := str "u2",
          date := none, excerpt := str "" },
        { source := str "TS", title := str "old", url := str "u1",
          date := some (-86400000), excerpt := str "" } ] := by
  show List.take 30 (sortRecords (dedupByUrl _)) = _
  decide

/-- C4: `items` is the first 30 elements of the deduplicated, sorted array (all
of it when it has fewer), so its length is `min(30, count)` and never more
than 30. -/
theorem snapshot_items_first_30 (now : JSString) (all : List OutputRecord) :
    (buildSnapshot now all).items = (sortRecords (dedupByUrl all)).take 30 ∧
      (buildSnapshot now all).items.length = min 30 (buildSnapshot now all).count ∧
      (buildSnapshot now all).items.length ≤ 30 ∧
      ((sortRecords (dedupByUrl all)).length < 30 →
        (buildSnapshot now all).items = sortRecords (dedupByUrl all)) := by
  refine ⟨rfl, ?_, ?_, ?_⟩
  · simp [buildSnapshot, List.length_take]
  · simp [buildSnapshot, List.length_take]
  · intro h
    simp only [buildSnapshot]
    exact List.take_of_length_le (Nat.le_of_lt h)

/-- C5: `count` is the length of the deduplicated array before `slice(0, 30)`,
which is the number of distinct `url` values among the collected records; it
is not capped: 31 records with 31 urls give `count = 31` and 30 items. -/
theorem snapshot_count_distinct_urls (now : JSString) (all : List OutputRecord) :
    (buildSnapshot now all).count = (dedupByUrl all).length ∧
      (buildSnapshot now all).count = (all.map OutputRecord.url).toFinset.card ∧
      (30 < (buildSnapshot now all).count →
        (buildSnapshot now all).items.length = 30 ∧
          (buildSnapshot now all).count ≠ (buildSnapshot now all).items.length) ∧
      (let many : List OutputRecord := (List.range 31).map (fun i =>
          { source := [], title := [], url := [i], date := none, excerpt := [] })
       (buildSnapshot now many).count = 31 ∧ (buildSnapshot now many).items.length = 30) := by
  have hc : (buildSnapshot now all).count = (dedupByUrl all).length := by
    simp [buildSnapshot, sortRecords_length]
  have hcard : (dedupByUrl all).length = (all.map OutputRecord.url).toFinset.card := by
    rw [← List.length_map (dedupByUrl all) OutputRecord.url,
      ← List.toFinset_card_of_nodup (dedupByUrl_urls_nodup all)]
    congr 1
    ext u
    simp only [List.mem_toFinset]
    exact dedupByUrl_mem_urls all u
  refine ⟨hc, hc.trans hcard, ?_, ?_⟩
  · intro h
    have hl : (buildSnapshot now all).items.length = 30 := by
      have : 30 < (sortRecords (dedupByUrl all)).length := by
        simpa [buildSnapshot] using h
      simp only [buildSnapshot, List.length_take]
      omega
    exact ⟨hl, by omega⟩
  · show (sortRecords (dedupByUrl _)).length = 31 ∧
      (List.take 30 (sortRecords (dedupByUrl _))).length = 30
    decide

/-! ## The excerpt, the parsed items and the keyword filter -/

set_option maxRecDepth 100000 in
/-- C6: with `s = stripHtml(description)`, the excerpt of the record is `s`
itself when `s` has at most 180 code units, and the first 180 code units of `s`
followed by the single code unit U+2026 when it has more; so it never has more
than 181. A stripped text of length 200 gives 180 code units and the marker,
one of length 100 is unchanged. -/
theorem excerpt_of_stripped_description (dateParse : JSString → Option Int)
    (feed : FeedSource) (it : RawFeedItem) :
    (mkRecord dateParse feed it).excerpt =
        (if (stripHtml (some it.description)).length ≤ 180 then stripHtml (some it.description)
         else (stripHtml (some it.description)).take 180 ++ [8230]) ∧
      (mkRecord dateParse feed it).excerpt.length ≤ 181 ∧
      str "…" = [8230] ∧
      (∀ s : JSString, s.length = 200 →
        excerptOf s = s.take 180 ++ [8230] ∧ (excerptOf s).length = 181) ∧
      (∀ s : JSString, s.length = 100 → excerptOf s = s) ∧
      (mkRecord dateParse feed
          { title := str "t", link := str "u", pubDate := str "",
            description := List.replicate 200 97 }).excerpt =
        List.replicate 180 97 ++ [8230] := by
  have hm : str "…" = [8230] := by decide
  have he : str "" = [] := by decide
  have key : ∀ s : JSString,
      excerptOf s = (if s.length ≤ 180 then s else s.take 180 ++ [8230]) := by
    intro s
    unfold excerptOf
    rw [hm, he]
    by_cases h : s.length ≤ 180
    · rw [if_pos h, if_neg (by omega), List.append_nil, List.take_of_length_le h]
    · rw [if_neg h, if_pos (by omega)]
  have hlen : ∀ s : JSString, (excerptOf s).length ≤ 181 := by
    intro s
    rw [key]
    split
    · omega
    · simp only [List.length_append, List.length_take, List.length_singleton]
      omega
  refine ⟨key _, hlen _, hm, ?_, ?_, ?_⟩
  · intro s hs
    rw [key, if_neg (by omega)]
    refine ⟨rfl, ?_⟩
    simp only [List.length_append, List.length_take, List.length_singleton]
    omega
  · intro s hs
    rw [key, if_pos (by omega)]
  · show excerptOf (stripHtml (some (List.replicate 200 97))) = _
    decide

/-- C9: every item returned by `parseRss` has a title and a link that are not
empty and not made of white space only, and so has every record of `items` in
the snapshot its `title` and its `url`. -/
theorem parsed_items_have_title_and_link (xml : JSString) :
    (∀ it ∈ parseRss xml, it.title ≠ [] ∧ it.link ≠ [] ∧
        it.title.all isWhite = false ∧ it.link.all isWhite = false) ∧
      ∀ (fetch : JSString → Except JSString Response) (dateParse : JSString → Option Int)
        (now : JSString), ∀ r ∈ (main fetch dateParse now).items,
          r.title ≠ [] ∧ r.url ≠ [] ∧
            r.title.all isWhite = false ∧ r.url.all isWhite = false := by
  have key : ∀ (x : JSString), ∀ it ∈ parseRss x, it.title ≠ [] ∧ it.link ≠ [] ∧
      it.title.all isWhite = false ∧ it.link.all isWhite = false := by
    intro x it hit
    obtain ⟨block, _, ht, hl, rfl⟩ := mem_parseRss x it hit
    exact ⟨ht, hl, trim_ne_nil_not_white _ ht, trim_ne_nil_not_white _ hl⟩
  refine ⟨key xml, ?_⟩
  intro fetch dateParse now r hr
  obtain ⟨feed, _, x, _, it, hit, _, rfl⟩ :=
    mem_collect_all fetch dateParse r (mem_snapshot_items now _ r hr)
  exact key x it hit

/-- C10: `matchesKeywords(text)` is true exactly when the lower-cased form of some
keyword of `KEYWORDS` occurs in the lower-cased text, an absent text counting as
the empty string. The empty text matches nothing, a text containing `irpf`
matches (keyword `IRPF`), and the item loop appends the record of an item
exactly when `matchesKeywords` holds for its title, a space and its stripped
description. -/
theorem matchesKeywords_iff_keyword_occurs (text : Option JSString) :
    (matchesKeywords text = true ↔
        ∃ k ∈ KEYWORDS, toLowerCase k <:+: toLowerCase (orEmpty text)) ∧
      orEmpty none = [] ∧
      matchesKeywords none = false ∧ matchesKeywords (some (str "")) = false ∧
      str "IRPF" ∈ KEYWORDS ∧
      (∀ a b : JSString, matchesKeywords (some (a ++ str "irpf" ++ b)) = true) ∧
      ∀ (dateParse : JSString → Option Int) (feed : FeedSource) (items : List RawFeedItem)
        (all : List OutputRecord),
        items.foldl (itemStep dateParse feed) all = all ++
          (items.filter (fun it =>
            matchesKeywords (some (it.title ++ str " " ++ stripHtml (some it.description))))).map
            (mkRecord dateParse feed) := by
  have hiff : ∀ t : Option JSString, (matchesKeywords t = true ↔
      ∃ k ∈ KEYWORDS, toLowerCase k <:+: toLowerCase (orEmpty t)) := by
    intro t
    unfold matchesKeywords
    simp only [List.any_eq_true, includes_iff_occurs]
  have hmem : str "IRPF" ∈ KEYWORDS := by decide
  refine ⟨hiff text, rfl, by decide, by decide, hmem, ?_, ?_⟩
  · intro a b
    rw [hiff]
    refine ⟨str "IRPF", hmem, ?_⟩
    have hl : toLowerCase (str "IRPF") = toLowerCase (str "irpf") := by decide
    simp only [orEmpty, toLowerCase_append, hl]
    exact ⟨toLowerCase a, toLowerCase b, rfl⟩
  · intro dateParse feed items all
    exact itemFold_eq dateParse feed items all

/-- A run of the theorem on a feed with one matching item. -/
theorem parsed_items_have_title_and_link_witness :
    parseRss (str "<item><title>Nuevo IRPF</title><link>http://x/1</link></item>") =
        [{ title := str "Nuevo IRPF", link := str "http://x/1", pubDate := [],
           description := [] }] ∧
      (str "Nuevo IRPF" ≠ [] ∧ str "http://x/1" ≠ [] ∧
        (str "Nuevo IRPF").all isWhite = false ∧ (str "http://x/1").all isWhite = false) :=
  ⟨by decide,
    (parsed_items_have_title_and_link
      (str "<item><title>Nuevo IRPF</title><link>http://x/1</link></item>")).1
      { title := str "Nuevo IRPF", link := str "http://x/1", pubDate := [], description := [] }
      (by decide)⟩

/-! ## `parseRss` on item blocks -/

/-- C7 as stated fails: the text `<item><title>a⏎b</title><link>u</link></item>`
has one item block whose title element has the text `a⏎b` (not empty, also
after trimming) and whose link element has the text `u`, and `parseRss` returns
no item for it, since `.` does not match the line feed. -/
theorem parseRss_drops_title_with_line_feed :
    HasTitle (str "<title>a\nb</title><link>u</link></item>") (str "a\nb") ∧
      HasElement (str "<link>") (str "</link>")
        (str "<title>a\nb</title><link>u</link></item>") (str "u") ∧
      trim (str "a\nb") ≠ [] ∧ trim (str "u") ≠ [] ∧
      ¬ str "<item>" <:+: str "<title>a\nb</title><link>u</link></item>" ∧
      str "<item><title>a\nb</title><link>u</link></item>" =
        str "<item>" ++ str "<title>a\nb</title><link>u</link></item>" ∧
      parseRss (str "<item><title>a\nb</title><link>u</link></item>") = [] := by
  refine ⟨Or.inr ⟨by decide, [], str "<link>u</link></item>", by decide, by decide, by decide⟩,
    ⟨str "<title>a\nb</title>", str "</item>", by decide, by decide, by decide⟩,
    by decide, by decide, by decide, by decide, by decide⟩

/-- C7 (amended): for a text made of a head without `<item>` followed by N item
blocks, each the text after an `<item>` up to the next `<item>` or the end,
where the title of a block is the content of its first
`<title><![CDATA[`...`]]></title>` element when the block contains
`<title><![CDATA[`, and the text of its first `<title>`...`</title>` element
when it does not, and its link is the text of its first `<link>`...`</link>`
element, title and link having no line terminator and not being empty after
trimming, `parseRss` returns exactly N items, the i-th with the trimmed title
and link of the i-th block. -/
theorem parseRss_wellFormed_blocks (pre : JSString)
    (bs : List (JSString × JSString × JSString))
    (hpre : ¬ str "<item>" <:+: pre)
    (hbs : ∀ b ∈ bs, WellFormedBlock b.1 b.2.1 b.2.2) :
    (parseRss (pre ++ bs.flatMap (fun b => str "<item>" ++ b.1))).length = bs.length ∧
      (parseRss (pre ++ bs.flatMap (fun b => str "<item>" ++ b.1))).map
          (fun it => (it.title, it.link)) =
        bs.map (fun b => (trim b.2.1, trim b.2.2)) := by
  have hx : bs.flatMap (fun b => str "<item>" ++ b.1) =
      (bs.map (fun b => b.1)).flatMap (fun b => str "<item>" ++ b) := by
    induction bs with
    | nil => rfl
    | cons b bs ih =>
      rw [List.flatMap_cons, List.map_cons, List.flatMap_cons,
        ih (fun b' hb' => hbs b' (List.mem_cons_of_mem _ hb'))]
  have hblocks : itemBlocks (pre ++ bs.flatMap (fun b => str "<item>" ++ b.1)) =
      bs.map (fun b => b.1) := by
    rw [hx]
    apply itemBlocks_of_blocks _ _ hpre
    intro b hb
    obtain ⟨b', hb', rfl⟩ := List.mem_map.1 hb
    exact (hbs b' hb').noItem
  have hmap := parseRssSteps_wellFormed bs hbs
  rw [parseRss_eq_flatMap, hblocks]
  refine ⟨?_, hmap⟩
  have hlen := congrArg List.length hmap
  rw [List.length_map, List.length_map] at hlen
  exact hlen

set_option maxRecDepth 100000 in
/-- A run of the amended C7 on a feed with a plain title, a CDATA-wrapped title,
and a block where a plain title stands before a CDATA-wrapped one. -/
theorem parseRss_wellFormed_blocks_witness :
    (parseRss (str "<rss>" ++
        (str "<item>" ++ str "<title>A</title><link>u</link></item>" ++
          (str "<item>" ++ str "<link> v </link><title><![CDATA[B]]></title></item>" ++
            (str "<item>" ++
              str "<title>P</title><title><![CDATA[W]]></title><link>w</link></item></rss>" ++
              []))))).length = 3 ∧
      (parseRss (str "<rss>" ++
        (str "<item>" ++ str "<title>A</title><link>u</link></item>" ++
          (str "<item>" ++ str "<link> v </link><title><![CDATA[B]]></title></item>" ++
            (str "<item>" ++
              str "<title>P</title><title><![CDATA[W]]></title><link>w</link></item></rss>" ++
              []))))).map (fun it => (it.title, it.link)) =
        [(trim (str "A"), trim (str "u")), (trim (str "B"), trim (str " v ")),
          (trim (str "W"), trim (str "w"))] :=
  parseRss_wellFormed_blocks (str "<rss>")
    [ (str "<title>A</title><link>u</link></item>", str "A", str "u"),
      (str "<link> v </link><title><![CDATA[B]]></title></item>", str "B", str " v "),
      (str "<title>P</title><title><![CDATA[W]]></title><link>w</link></item></rss>",
        str "W", str "w") ]
    (by decide)
    (by
      intro b hb
      simp only [List.mem_cons, List.mem_singleton, List.not_mem_nil, or_false] at hb
      rcases hb with rfl | rfl | rfl
      · exact {
          noItem := by decide
          hasTitle := Or.inr ⟨by decide, [], str "<link>u</link></item>", by decide,
            by decide, by decide⟩
          hasLink := ⟨str "<title>A</title>", str "</item>", by decide, by decide, by decide⟩
          titleOneLine := by decide
          linkOneLine := by decide
          titleNotBlank := by decide
          linkNotBlank := by decide }
      · exact {
          noItem := by decide
          hasTitle := Or.inl ⟨str "<link> v </link>", str "</item>", by decide,
            by decide, by decide⟩
          hasLink := ⟨[], str "<title><![CDATA[B]]></title></item>", by decide,
            by decide, by decide⟩
          titleOneLine := by decide
          linkOneLine := by decide
          titleNotBlank := by decide
          linkNotBlank := by decide }
      · exact {
          noItem := by decide
          hasTitle := Or.inl ⟨str "<title>P</title>", str "<link>w</link></item></rss>",
            by decide, by decide, by decide⟩
          hasLink := ⟨str "<title>P</title><title><![CDATA[W]]></title>", str "</item></rss>",
            by decide, by decide, by decide⟩
          titleOneLine := by decide
          linkOneLine := by decide
          titleNotBlank := by decide
          linkNotBlank := by decide })

/-- C8 as stated fails: in `<item><link>u</link></item><title>T</title>` the
text between `<item>` and `</item>` has no `<title>`, and `parseRss` returns an
item all the same, with the title that follows the block. -/
theorem parseRss_takes_title_after_item_end :
    str "<item><link>u</link></item><title>T</title>" =
        str "<item>" ++ str "<link>u</link>" ++ str "</item>" ++ str "<title>T</title>" ∧
      ¬ str "<title>" <:+: str "<link>u</link>" ∧
      parseRss (str "<item><link>u</link></item><title>T</title>") =
        [{ title := str "T", link := str "u", pubDate := str "", description := str "" }] := by
  decide

/-- C8 (amended): for a text made of a head without `<item>` followed by blocks,
each the text after an `<item>` up to the next `<item>` or the end of the text,
`parseRss` pushes the blocks' items in order; a block gives no item exactly
when its title or its link is empty after trimming, which is so when the block
contains no `<title>` or no `<link>`; and the number of items returned is the
number of blocks minus the number of blocks that give none. -/
theorem parseRss_drops_incomplete_blocks (pre : JSString) (bs : List JSString)
    (hpre : ¬ str "<item>" <:+: pre) (hbs : ∀ b ∈ bs, ¬ str "<item>" <:+: b) :
    parseRss (pre ++ bs.flatMap (fun b => str "<item>" ++ b)) =
        bs.flatMap (parseRssStep []) ∧
      (∀ b, parseRssStep [] b = [] ↔ (blockTitle b = [] ∨ blockLink b = [])) ∧
      (∀ b, (¬ str "<title>" <:+: b ∨ ¬ str "<link>" <:+: b) → parseRssStep [] b = []) ∧
      (parseRss (pre ++ bs.flatMap (fun b => str "<item>" ++ b))).length =
        bs.length -
          (bs.filter (fun b => decide (blockTitle b = [] ∨ blockLink b = []))).length := by
  have h1 : parseRss (pre ++ bs.flatMap (fun b => str "<item>" ++ b)) =
      bs.flatMap (parseRssStep []) := by
    rw [parseRss_eq_flatMap, itemBlocks_of_blocks pre bs hpre hbs]
  refine ⟨h1, parseRssStep_nil_iff, ?_, ?_⟩
  · rintro b (h | h)
    · exact (parseRssStep_nil_iff b).2 (Or.inl (blockTitle_of_no_title b h))
    · exact (parseRssStep_nil_iff b).2 (Or.inr (blockLink_of_no_link b h))
  · rw [h1]
    have := parseRssSteps_length bs
    omega

/-- A run of the amended C8 on a feed whose second block has no title. -/
theorem parseRss_drops_incomplete_blocks_witness :
    parseRss (str "<rss>" ++
        (str "<item>" ++ str "<title>A</title><link>u</link></item>" ++
          (str "<item>" ++ str "<link>v</link></item></rss>" ++ []))) =
      [{ title := str "A", link := str "u", pubDate := str "", description := str "" }] ∧
    (parseRss (str "<rss>" ++
        (str "<item>" ++ str "<title>A</title><link>u</link></item>" ++
          (str "<item>" ++ str "<link>v</link></item></rss>" ++ [])))).length = 2 - 1 := by
  have h := parseRss_drops_incomplete_blocks (str "<rss>")
    [str "<title>A</title><link>u</link></item>", str "<link>v</link></item></rss>"]
    (by decide) (by decide)
  refine ⟨h.1.trans (by decide), h.2.2.2.trans ?_⟩
  have hc : ([str "<title>A</title><link>u</link></item>",
      str "<link>v</link></item></rss>"].filter
      (fun b => decide (blockTitle b = [] ∨ blockLink b = []))).length = 1 := by decide
  rw [hc]
  rfl

/-! ## The feed loop -/

/-- C11: with each fetch either a body or a failure, the array `all` after the
loop over a list of feeds is the concatenation, in the order of the feeds, of
the records of the keyword-matching items of each fetched feed in document
order, and the error lines are one line `[id] message` per failed feed, in the
same order; a failed feed adds no record and later feeds are still read. With
a first feed of three items of which one matches and a second feed that fails,
`count` is 1 and one line is logged. -/
theorem feed_loop_collects_matching_records (fetch : JSString → Except JSString Response)
    (dateParse : JSString → Option Int) (feeds : List FeedSource) :
    (feeds.foldl (feedStep fetch dateParse) { all := [], errors := [] }).all =
        feeds.flatMap (fun feed =>
          match fetchText fetch feed.url with
          | .ok xml => ((parseRss xml).filter
              (fun it => matchesKeywords (some (blobOf it)))).map (mkRecord dateParse feed)
          | .error _ => []) ∧
      (feeds.foldl (feedStep fetch dateParse) { all := [], errors := [] }).errors =
        feeds.flatMap (fun feed =>
          match fetchText fetch feed.url with
          | .ok _ => []
          | .error msg => [str "[" ++ feed.id ++ str "] " ++ msg]) ∧
      collect fetch dateParse =
        FEEDS.foldl (feedStep fetch dateParse) { all := [], errors := [] } ∧
      (∀ (st : RunState) (feed : FeedSource) (msg : JSString),
        fetchText fetch feed.url = .error msg →
          feedStep fetch dateParse st feed =
            { all := st.all, errors := st.errors ++ [str "[" ++ feed.id ++ str "] " ++ msg] }) ∧
      (∀ now : JSString,
        let fetch2 : JSString → Except JSString Response := fun url =>
          if url = str "https://a.example/rss" then
            .ok { ok := true, status := 200, text := str "<rss><channel><title>A</title><item><title>Sentencia IRPF</title><link>http://a/1</link><pubDate>x</pubDate></item><item><title>Deportes</title><link>http://a/2</link></item><item><title>Cultura</title><link>http://a/3</link></item></channel></rss>" }
          else .error (str "network down")
        let feeds2 : List FeedSource :=
          [ { id := str "A", url := str "https://a.example/rss" },
            { id := str "B", url := str "https://b.example/rss" } ]
        let st := feeds2.foldl (feedStep fetch2 (fun _ => some 1700000000000))
          { all := [], errors := [] }
        (buildSnapshot now st.all).count = 1 ∧
          (buildSnapshot now st.all).items =
            [{ source := str "A", title := str "Sentencia IRPF", url := str "http://a/1",
               date := some 1700000000000, excerpt := str "" }] ∧
          st.errors = [str "[B] network down"]) := by
  refine ⟨?_, ?_, rfl, ?_, ?_⟩
  · rw [feedFold_all]
    rfl
  · rw [feedFold_errors]
    rfl
  · intro st feed msg h
    unfold feedStep
    rw [h]
  · intro now
    show (sortRecords (dedupByUrl _)).length = 1 ∧
      List.take 30 (sortRecords (dedupByUrl _)) = _ ∧ _ = _
    decide

/-- C12: when the fetch of every feed of `FEEDS` fails, the snapshot is built all
the same, with `count = 0` and `items` empty, and one error line is written
per feed. -/
theorem all_feeds_failed_gives_empty_snapshot (fetch : JSString → Except JSString Response)
    (dateParse : JSString → Option Int) (now : JSString)
    (h : ∀ feed ∈ FEEDS, ∃ msg, fetchText fetch feed.url = .error msg) :
    (main fetch dateParse now).count = 0 ∧ (main fetch dateParse now).items = [] ∧
      (main fetch dateParse now).generatedAt = now ∧
      (collect fetch dateParse).all = [] ∧ (collect fetch dateParse).errors.length = 3 := by
  obtain ⟨h1, h2⟩ := feedFold_all_failed fetch dateParse FEEDS h { all := [], errors := [] }
  have hall : (collect fetch dateParse).all = [] := h1
  refine ⟨?_, ?_, rfl, hall, h2⟩
  · show (sortRecords (dedupByUrl (collect fetch dateParse).all)).length = 0
    rw [hall]
    rfl
  · show List.take 30 (sortRecords (dedupByUrl (collect fetch dateParse).all)) = []
    rw [hall]
    rfl

/-- A run of C12 with a host whose every fetch is rejected. -/
theorem all_feeds_failed_gives_empty_snapshot_witness :
    (main (fun _ => .error (str "down")) (fun _ => none) (str "now")).count = 0 ∧
      (main (fun _ => .error (str "down")) (fun _ => none) (str "now")).items = [] ∧
      (main (fun _ => .error (str "down")) (fun _ => none) (str "now")).generatedAt =
        str "now" ∧
      (collect (fun _ => .error (str "down")) (fun _ => none)).all = [] ∧
      (collect (fun _ => .error (str "down")) (fun _ => none)).errors.length = 3 :=
  all_feeds_failed_gives_empty_snapshot (fun _ => .error (str "down")) (fun _ => none)
    (str "now") (fun _ _ => ⟨str "down", rfl⟩)

/-! ## The order of the sorted array -/

/-- C16: the sort is stable: for every time `k`, the records whose sort key is
`k` (all of them without date when `k = 0`, or all with the same instant) stand
in the sorted array in the order they had before; so two records with equal
keys, the first before the second in the array, are in that order after the
sort. -/
theorem sort_keeps_order_of_equal_keys (l : List OutputRecord) :
    (∀ k : Int, (sortRecords l).filter (fun r => decide (timeOf r = k)) =
        l.filter (fun r => decide (timeOf r = k))) ∧
      (∀ a b : OutputRecord, [a, b].Sublist l → timeOf a = timeOf b →
        [a, b].Sublist (sortRecords l)) ∧
      (∀ a b : OutputRecord, a.date = b.date → timeOf a = timeOf b) := by
  refine ⟨fun k => sortRecords_filter_time k l, ?_, ?_⟩
  · intro a b hs hk
    have h1 := hs.filter (fun r => decide (timeOf r = timeOf a))
    have h2 : [a, b].filter (fun r => decide (timeOf r = timeOf a)) = [a, b] := by
      simp [List.filter_cons, hk]
    rw [h2, ← sortRecords_filter_time] at h1
    exact h1.trans (List.filter_sublist _)
  · intro a b h
    unfold timeOf
    rw [h]

/-- C18: the comparator takes 0 as the time of a record without date; the sorted
array is non-increasing in that key, and on the keys the comparator is a total
preorder: reflexive, transitive and total, and it is `≤ 0` exactly when the key
of the first record is at least the key of the second. -/
theorem sort_key_absent_is_epoch (l : List OutputRecord) :
    (∀ r : OutputRecord, r.date = none → timeOf r = 0) ∧
      (∀ (r : OutputRecord) (t : Int), r.date = some t → timeOf r = t) ∧
      (sortRecords l).Pairwise (fun x y => timeOf y ≤ timeOf x) ∧
      (∀ a b : OutputRecord, compareFn a b ≤ 0 ↔ timeOf b ≤ timeOf a) ∧
      (∀ a : OutputRecord, compareFn a a ≤ 0) ∧
      (∀ a b : OutputRecord, compareFn a b ≤ 0 ∨ compareFn b a ≤ 0) ∧
      (∀ a b c : OutputRecord, compareFn a b ≤ 0 → compareFn b c ≤ 0 → compareFn a c ≤ 0) := by
  refine ⟨?_, ?_, sortRecords_pairwise l, ?_, ?_, ?_, ?_⟩
  · intro r h
    unfold timeOf
    rw [h]
  · intro r t h
    unfold timeOf
    rw [h]
  · intro a b
    unfold compareFn
    omega
  · intro a
    unfold compareFn
    omega
  · intro a b
    unfold compareFn
    omega
  · intro a b c
    unfold compareFn
    omega

/-! ## `parseRss`: the description -/

/-- C13 (evaluation of the code): for the description element
`<description><![CDATA[a⏎b]]></description>`, whose CDATA content has a line
feed, `parseRss` returns the description `<![CDATA[a⏎b]]>`, wrapper included,
and `stripHtml` then turns it into the empty string; with the content on one
line the wrapper is removed. -/
theorem parseRss_keeps_wrapper_of_multiline_cdata :
    parseRss (str "<item><title>T</title><link>u</link><description><![CDATA[a\nb]]></description></item>") =
        [{ title := str "T", link := str "u", pubDate := str "",
           description := str "<![CDATA[a\nb]]>" }] ∧
      stripHtml (some (str "<![CDATA[a\nb]]>")) = str "" ∧
      parseRss (str "<item><title>T</title><link>u</link><description><![CDATA[ a b ]]></description></item>") =
        [{ title := str "T", link := str "u", pubDate := str "",
           description := str "a b" }] := by
  decide

/-! ## `stripHtml` -/

/-- C14: the result of `stripHtml`, for a string or an absent input, neither
starts nor ends with a white-space code unit, every white-space code unit in it
is a space, and no two white-space code units are adjacent. -/
theorem stripHtml_single_spaces (html : Option JSString) :
    (∀ h : stripHtml html ≠ [],
        isWhite ((stripHtml html).head h) = false ∧
          isWhite ((stripHtml html).getLast h) = false) ∧
      (∀ c ∈ stripHtml html, isWhite c = true → c = 32) ∧
      (stripHtml html).Chain' (fun a b : Nat => ¬ (isWhite a = true ∧ isWhite b = true)) ∧
      stripHtml none = stripHtml (some (str "")) ∧ stripHtml none = str "" ∧
      stripHtml (some (str " uno\t\n dos <i>tres</i> ")) = str "uno dos tres" := by
  refine ⟨fun h => ⟨?_, ?_⟩, stripHtml_white_is_space html, stripHtml_chain html,
    by decide, by decide, by decide⟩
  · exact trim_head_not_white _ h
  · exact trim_last_not_white _ h

/-- C15: the result of `stripHtml` has no `<` followed, anywhere later, by a `>`;
`<<b>>` becomes `>`, and an unclosed `<` stays. -/
theorem stripHtml_no_tag_span (html : Option JSString) :
    (∀ l1 l2 : JSString, stripHtml html = l1 ++ 60 :: l2 → 62 ∉ l2) ∧
      str "<" = [60] ∧ str ">" = [62] ∧
      stripHtml (some (str "<<b>>")) = str ">" ∧
      stripHtml (some (str "a <b")) = str "a <b" := by
  refine ⟨?_, by decide, by decide, by decide, by decide⟩
  intro l1 l2 h hmem
  have hp := stripHtml_pairwise html
  rw [h, List.pairwise_append] at hp
  exact (List.pairwise_cons.1 hp.2.1).1 62 hmem ⟨rfl, rfl⟩

/-- C19: `stripHtml` is idempotent. -/
theorem stripHtml_idempotent (html : Option JSString) :
    stripHtml (some (stripHtml html)) = stripHtml html ∧
      ∀ s : JSString, stripHtml (some (stripHtml (some s))) = stripHtml (some s) :=
  ⟨stripHtml_fixed html, fun s => stripHtml_fixed (some s)⟩

/-! ## `toISO` -/

/-- C17: for every `pubDate`, `toISO` returns and does not throw: the `isNaN`
guard keeps `toISOString`, which throws a `RangeError` on an invalid date, for
valid dates only. The value is `null` exactly when the time value of
`new Date(pubDate)` is `NaN`, and otherwise the UTC ISO-8601 string of that time
value, which is not empty, so that `toISO(it.pubDate) || null` is the same
value: the `date` of the record, kept as the time value of that string. A block
without `<pubDate>` gives the empty `pubDate`, and `null` when the host's
parser rejects the empty string. -/
theorem toISO_null_iff_invalid (dateParse : JSString → Option Int) (pubDate : JSString)
    (feed : FeedSource) (it : RawFeedItem) :
    toISO dateParse pubDate = .ok ((dateParse pubDate).map isoText) ∧
      (toISO dateParse pubDate = .ok none ↔ dateParse pubDate = none) ∧
      (∀ t : Int, dateParse pubDate = some t →
        toISO dateParse pubDate = .ok (some (isoText t))) ∧
      toISOString none = .error (str "Invalid time value") ∧
      (∀ t : Int, isoText t ≠ [] ∧ orNull (some (isoText t)) = some (isoText t)) ∧
      toISO dateParse it.pubDate = .ok ((mkRecord dateParse feed it).date.map isoText) ∧
      (mkRecord dateParse feed it).date = dateParse it.pubDate ∧
      (∀ block : JSString, ¬ str "<pubDate>" <:+: block → blockPubDate block = str "") ∧
      (dateParse (str "") = none → ∀ block : JSString, ¬ str "<pubDate>" <:+: block →
        toISO dateParse (blockPubDate block) = .ok none) ∧
      isoText 0 = str "1970-01-01T00:00:00.000Z" ∧
      isoText (-86400000) = str "1969-12-31T00:00:00.000Z" ∧
      isoText 1709210096789 = str "2024-02-29T12:34:56.789Z" ∧
      isoText 253402300799999 = str "9999-12-31T23:59:59.999Z" ∧
      isoText (-62167219200001) = str "-000001-12-31T23:59:59.999Z" ∧
      isoText 8640000000000000 = str "+275760-09-13T00:00:00.000Z" := by
  have hret := toISO_returns dateParse
  refine ⟨hret pubDate, ?_, ?_, rfl, ?_, ?_, mkRecord_date dateParse feed it,
    fun block h => blockPubDate_of_no_pubDate block h, ?_,
    by decide, by decide, by decide, by decide, by decide, by decide⟩
  · rw [hret]
    cases dateParse pubDate with
    | none => exact ⟨fun _ => rfl, fun _ => rfl⟩
    | some t =>
      constructor
      · intro h
        cases h
      · intro h
        cases h
  · intro t ht
    rw [hret, ht]
    rfl
  · intro t
    exact ⟨isoText_ne_nil t, orNull_some _ (isoText_ne_nil t)⟩
  · rw [hret, mkRecord_date]
  · intro hempty block h
    rw [blockPubDate_of_no_pubDate block h, hret]
    have he : dateParse [] = none := hempty
    rw [he]
    rfl

/-! ## The keyword list -/

/-- C20: the keywords `LIRPF`, `LIRNR`, `LIS` and `LIVA` are redundant:
`matchesKeywords` gives, for every text, the result of the same test over
`KEYWORDS` without these four (22 keywords), each of the four containing
another keyword. -/
theorem matchesKeywords_without_redundant (text : Option JSString) :
    matchesKeywords text =
        (KEYWORDS.filter
          (fun k => !([str "LIRPF", str "LIRNR", str "LIS", str "LIVA"].contains k))).any
          (fun k => includes (toLowerCase (orEmpty text)) (toLowerCase k)) ∧
      (KEYWORDS.filter
        (fun k => !([str "LIRPF", str "LIRNR", str "LIS", str "LIVA"].contains k))).length
        = 22 ∧
      str "IRPF" <:+: str "LIRPF" ∧ str "IRNR" <:+: str "LIRNR" ∧
      str "IS" <:+: str "LIS" ∧ str "IVA" <:+: str "LIVA" ∧
      str "IRPF" ∈ KEYWORDS ∧ str "IRNR" ∈ KEYWORDS ∧ str "IS" ∈ KEYWORDS ∧
      str "IVA" ∈ KEYWORDS := by
  refine ⟨?_, by decide, by decide, by decide, by decide, by decide, by decide, by decide,
    by decide, by decide⟩
  unfold matchesKeywords
  rw [Bool.eq_iff_iff]
  simp only [List.any_eq_true, includes_iff_occurs]
  constructor
  · rintro ⟨k, hk, hin⟩
    obtain ⟨k', hk', hsub⟩ := keywords_covered k hk
    exact ⟨k', hk', hsub.trans hin⟩
  · rintro ⟨k, hk, hin⟩
    exact ⟨k, (List.mem_filter.1 hk).1, hin⟩

end FetchNews
